import Mathlib

/-!
# Verification of `estruturas-de-dados`

A shallow embedding of `avl_tree.h`, `array_list.h`, `circular_list.h` and
`linked_queue.h`, and theorems about it.

Modelling conventions.
* `T` is any type with a linear order; `<`, `>` and `==` of the source are those of the order.
* A `Node*` of the tree is a value of `AVLTree.Node`: `nullptr` is `null`, and a non-null
  pointer is the subtree it owns. Functions that write through a pointer return the new
  subtree.
* A call ends in `Except.ok` with its result, or in `Except.error` with a fault: one of the
  `throw std::out_of_range` statements, or an access the language leaves undefined (the
  dereference of a null pointer, a cell outside a buffer).
* `root->insert(root, data)` and `root->height(root)` are calls through a possibly null
  `root`; neither body touches `this`, so they are modelled as plain calls.
* `size_` is a `Nat`: it is only decremented when it is non-zero, and incrementing it past
  `SIZE_MAX` is out of reach.
* The traversals push into an `ArrayList`. `Node.pre_order`, `Node.in_order` and
  `Node.post_order` produce the sequence of pushed values; `Node.pre_order_into`,
  `Node.in_order_into` and `Node.post_order_into` push into the container itself, with its
  capacity.
-/

set_option linter.unusedSectionVars false

namespace structures

/-- Ways a call can end without returning: the two `std::out_of_range` throws of
`avl_tree.h`, and the dereference of a null `Node*` (undefined behaviour in C++). -/
inductive Fault where
  | invalid_element
  | empty_tree
  | null_deref
  deriving DecidableEq

/-! ## `array_list.h` -/

/-- Ways a call on an `ArrayList` can end without returning: the `std::out_of_range`
throws of `array_list.h` that the modelled functions reach ("full list", "invalid index",
"empty list"), and an access to a cell outside the buffer (undefined behaviour in C++). -/
inductive ListFault where
  | full_list
  | invalid_index
  | empty_list
  | out_of_buffer
  deriving DecidableEq

/-- `ArrayList<T>`: the cells of the buffer `contents`, `size_` and `max_size_`. -/
structure ArrayList (α : Type) where
  contents : List α
  size_ : Nat
  max_size_ : Nat
  deriving DecidableEq

namespace ArrayList

variable {α : Type}

/-- `static const auto DEFAULT_MAX = 10u;`. -/
def DEFAULT_MAX : Nat := 10

/-- `ArrayList<T>::ArrayList(std::size_t max_size)`. The cells of `new T[max_size_]` are
given `T`'s default value; no modelled function reads a cell at or above `size_`. -/
def ctor [Inhabited α] (max_size : Nat) : ArrayList α :=
  ⟨List.replicate max_size default, 0, max_size⟩

/-- `ArrayList<T>::ArrayList()`. Its body is the single statement
`structures::ArrayList<T>::ArrayList(DEFAULT_MAX);`, which builds and discards another
list: the members of the list under construction are not written, and keep whatever
values `raw` they had. -/
def ctor_default (raw : ArrayList α) : ArrayList α := raw

/-- `std::size_t ArrayList<T>::size() const`. -/
def size (l : ArrayList α) : Nat := l.size_

/-- `std::size_t ArrayList<T>::max_size() const`. -/
def max_size (l : ArrayList α) : Nat := l.max_size_

/-- `bool ArrayList<T>::empty() const`. -/
def empty (l : ArrayList α) : Bool := if l.size = 0 then true else false

/-- `bool ArrayList<T>::full() const`. -/
def full (l : ArrayList α) : Bool := decide (l.size = l.max_size)

/-- Reading `contents[i]`. -/
def read (cs : List α) (i : Nat) : Except ListFault α :=
  match cs[i]? with
  | some x => .ok x
  | none => .error .out_of_buffer

/-- The assignment `contents[i] = x`. -/
def write (cs : List α) (i : Nat) (x : α) : Except ListFault (List α) :=
  if i < cs.length then .ok (cs.set i x) else .error .out_of_buffer

/-- The loop `for (i = size(); i > index; i--) contents[i] = contents[i-1];` of `insert`,
entered with the current value of `i`. -/
def shift (index : Nat) : Nat → List α → Except ListFault (List α)
  | 0, cs => .ok cs
  | i + 1, cs =>
      if i + 1 > index then do
        let x ← read cs i
        let cs' ← write cs (i + 1) x
        shift index i cs'
      else .ok cs

/-- `void ArrayList<T>::insert(const T& data, std::size_t index)`. -/
def insert (l : ArrayList α) (data : α) (index : Nat) : Except ListFault (ArrayList α) :=
  if l.full then .error .full_list
  else if index > l.size then .error .invalid_index
  else do
    let cs ← (if l.size > 0 then shift index l.size l.contents else .ok l.contents)
    let cs' ← write cs index data
    .ok ⟨cs', l.size_ + 1, l.max_size_⟩

/-- `void ArrayList<T>::push_back(const T& data)`. -/
def push_back (l : ArrayList α) (data : α) : Except ListFault (ArrayList α) :=
  l.insert data l.size

/-- `void ArrayList<T>::push_front(const T& data)`. -/
def push_front (l : ArrayList α) (data : α) : Except ListFault (ArrayList α) :=
  l.insert data 0

/-- The loop `for (index = 0; index < size(); index++)` of `find`, entered with the
current `index` and the number `rem = size() - index` of iterations left. -/
def find_loop [DecidableEq α] (l : ArrayList α) (data : α) :
    Nat → Nat → Except ListFault Nat
  | 0, _ => .ok l.size
  | rem + 1, index => do
      let x ← read l.contents index
      if x = data then .ok index else find_loop l data rem (index + 1)

/-- `std::size_t ArrayList<T>::find(const T& data) const`. -/
def find [DecidableEq α] (l : ArrayList α) (data : α) : Except ListFault Nat :=
  if l.empty then .error .empty_list else find_loop l data l.size 0

/-- `bool ArrayList<T>::contains(const T& data) const`. -/
def contains [DecidableEq α] (l : ArrayList α) (data : α) : Except ListFault Bool := do
  let index ← l.find data
  .ok (decide (index < l.size))

/-- The elements of the list: the first `size_` cells of the buffer. -/
def toList (l : ArrayList α) : List α := l.contents.take l.size_

/-- What the constructor `ArrayList(max_size)` sets up and every modelled member function
keeps: the buffer has `max_size_` cells and `size_` does not exceed `max_size_`. -/
def wf (l : ArrayList α) : Prop := l.contents.length = l.max_size_ ∧ l.size_ ≤ l.max_size_

/-- A function on lists that behaves as `xs.length` calls of `push_back`, one for each
value of `xs` in turn: with room for all of them it appends them, otherwise one of the
calls throws "full list". -/
def Pushes (f : ArrayList α → Except ListFault (ArrayList α)) (xs : List α) : Prop :=
  ∀ v : ArrayList α, v.wf →
    (v.size + xs.length ≤ v.max_size →
      ∃ v', f v = .ok v' ∧ v'.wf ∧ v'.max_size = v.max_size ∧
        v'.size = v.size + xs.length ∧ v'.toList = v.toList ++ xs) ∧
    (v.max_size < v.size + xs.length → f v = .error .full_list)

end ArrayList

/-! ## `circular_list.h` -/

/-- Ways a call on a `CircularList` can end without returning: the `std::out_of_range`
throws of `circular_list.h`, and the dereference of a null `Node*`. -/
inductive RingFault where
  | lista_cheia
  | posicao_invalida
  | lista_vazia
  | null_deref
  deriving DecidableEq

/-- `CircularList<T>`: the sentinel `head` with its data, the nodes reached from
`head->next()` in order, whether the `next_` of the last of them (of `head` itself when
there is none) is `head` (`closed`) or `nullptr`, and `size_`. -/
structure CircularList (α : Type) where
  head_data : α
  nodes : List α
  closed : Bool
  size_ : Nat
  deriving DecidableEq

namespace CircularList

variable {α : Type}

/-- A `Node*` into the list: `nullptr`, the sentinel, or the `i`-th node after it. -/
inductive Ptr where
  | null
  | head
  | node (i : Nat)
  deriving DecidableEq

/-- `CircularList<T>::CircularList()`: `head = new Node(0)` (its `next_` is `nullptr`),
`size_ = 0`. -/
def ctor [Zero α] : CircularList α := ⟨0, [], false, 0⟩

/-- `bool CircularList<T>::empty() const`. -/
def empty (l : CircularList α) : Bool := decide (l.size_ = 0)

/-- `std::size_t CircularList<T>::size() const`. -/
def size (l : CircularList α) : Nat := l.size_

/-- Where the chain ends: the `next_` of its last node. -/
def chain_end (l : CircularList α) : Ptr := if l.closed then .head else .null

/-- `Node* Node::next()` through a pointer into the list. -/
def next (l : CircularList α) : Ptr → Except RingFault Ptr
  | .null => .error .null_deref
  | .head => .ok (if 0 < l.nodes.length then .node 0 else l.chain_end)
  | .node i => .ok (if i + 1 < l.nodes.length then .node (i + 1) else l.chain_end)

/-- `T& Node::data()` through a pointer into the list. -/
def data (l : CircularList α) : Ptr → Except RingFault α
  | .null => .error .null_deref
  | .head => .ok l.head_data
  | .node i =>
      match l.nodes[i]? with
      | some x => .ok x
      | none => .error .null_deref

/-- The loop `for (i = 0; i < n; i++) p = p->next();`. -/
def advance (l : CircularList α) : Nat → Ptr → Except RingFault Ptr
  | 0, p => .ok p
  | n + 1, p => do
      let q ← l.next p
      advance l n q

/-- `void CircularList<T>::push_front(const T& data)`. -/
def push_front (l : CircularList α) (data : α) : Except RingFault (CircularList α) :=
  if l.empty then .ok ⟨l.head_data, [data], true, l.size_ + 1⟩
  else .ok ⟨l.head_data, data :: l.nodes, l.closed, l.size_ + 1⟩

/-- `void CircularList<T>::insert(const T& data, std::size_t index)`; `index < 0` is
false for a `std::size_t`. -/
def insert (l : CircularList α) (data : α) (index : Nat) :
    Except RingFault (CircularList α) :=
  if index > l.size_ then .error .posicao_invalida
  else if index = 0 then l.push_front data
  else do
    let first ← l.next .head
    let previous ← l.advance (index - 1) first
    match previous with
    | .null => .error .null_deref
    | .head => .ok ⟨l.head_data, data :: l.nodes, l.closed, l.size_ + 1⟩
    | .node p =>
        .ok ⟨l.head_data, l.nodes.take (p + 1) ++ data :: l.nodes.drop (p + 1), l.closed,
          l.size_ + 1⟩

/-- `void CircularList<T>::push_back(const T& data)`. -/
def push_back (l : CircularList α) (data : α) : Except RingFault (CircularList α) :=
  l.insert data l.size_

/-- `T& CircularList<T>::at(std::size_t index)`; `index < 0` is false for a
`std::size_t`. -/
def at_ (l : CircularList α) (index : Nat) : Except RingFault α :=
  if l.empty then .error .lista_vazia
  else if index > l.size_ then .error .posicao_invalida
  else do
    let first ← l.next .head
    let current ← l.advance index first
    l.data current

end CircularList

/-! ## `linked_queue.h` -/

/-- Ways a call on a `LinkedQueue` can end without returning: the throw
`std::out_of_range("fila vazia")`, and the dereference of a pointer that is null or
leads to a deleted node (undefined behaviour in C++). The throw "fila cheia" guards
`new_value == nullptr`, which `new` never returns. -/
inductive QueueFault where
  | fila_vazia
  | bad_pointer
  deriving DecidableEq

/-- `LinkedQueue<T>::Node`: `data_` and the pointer `next_`; a `Node*` is `none` for
`nullptr` or the address of a node. -/
structure LinkedQueue.Node (α : Type) where
  data_ : α
  next_ : Option Nat
  deriving DecidableEq

/-- `LinkedQueue<T>`: the pointers `head` and `tail`, `size_`, and the nodes allocated
so far: `heap[a]` is the node at address `a`, or `none` once it has been deleted. -/
structure LinkedQueue (α : Type) where
  heap : List (Option (LinkedQueue.Node α))
  head : Option Nat
  tail : Option Nat
  size_ : Nat
  deriving DecidableEq

namespace LinkedQueue

variable {α : Type}

/-- `LinkedQueue<T>::LinkedQueue()`. -/
def ctor : LinkedQueue α := ⟨[], none, none, 0⟩

/-- `bool LinkedQueue<T>::empty() const`. -/
def empty (q : LinkedQueue α) : Bool := decide (q.size_ = 0)

/-- `std::size_t LinkedQueue<T>::size() const`. -/
def size (q : LinkedQueue α) : Nat := q.size_

/-- The node a pointer leads to. -/
def deref (heap : List (Option (Node α))) : Option Nat → Except QueueFault (Node α)
  | none => .error .bad_pointer
  | some a =>
      match heap[a]? with
      | some (some nd) => .ok nd
      | _ => .error .bad_pointer

/-- `void LinkedQueue<T>::enqueue(const T& data)`: the new node is built by
`new Node(data, tail)` at a fresh address. -/
def enqueue (q : LinkedQueue α) (data : α) : Except QueueFault (LinkedQueue α) :=
  let new_value := q.heap.length
  let heap := q.heap ++ [some ⟨data, q.tail⟩]
  if q.empty then .ok ⟨heap, some new_value, some new_value, q.size_ + 1⟩
  else
    match q.tail with
    | none => .error .bad_pointer
    | some t =>
        match heap[t]? with
        | some (some nd) =>
            .ok ⟨heap.set t (some ⟨nd.data_, some new_value⟩), q.head, some new_value,
              q.size_ + 1⟩
        | _ => .error .bad_pointer

/-- `T LinkedQueue<T>::dequeue()`: the value returned and the queue it leaves. -/
def dequeue (q : LinkedQueue α) : Except QueueFault (α × LinkedQueue α) :=
  if q.empty then .error .fila_vazia
  else
    match q.head with
    | none => .error .bad_pointer
    | some a =>
        match q.heap[a]? with
        | some (some nd) => .ok (nd.data_, ⟨q.heap.set a none, nd.next_, q.tail, q.size_ - 1⟩)
        | _ => .error .bad_pointer

/-- `T& LinkedQueue<T>::front() const`. -/
def front (q : LinkedQueue α) : Except QueueFault α :=
  if q.empty then .error .fila_vazia
  else (deref q.heap q.head).map (fun nd => nd.data_)

/-- `T& LinkedQueue<T>::back() const`. -/
def back (q : LinkedQueue α) : Except QueueFault α :=
  if q.empty then .error .fila_vazia
  else (deref q.heap q.tail).map (fun nd => nd.data_)

/-- A call of a public member function. -/
inductive Call (α : Type) where
  | enqueue (data : α)
  | dequeue
  | front
  | back
  | empty
  | size
  deriving DecidableEq

/-- What a call returns. -/
inductive Reply (α : Type) where
  | done
  | value (x : α)
  | flag (b : Bool)
  | count (n : Nat)
  deriving DecidableEq

/-- One call: its reply and the queue it leaves. -/
def call (q : LinkedQueue α) : Call α → Except QueueFault (Reply α × LinkedQueue α)
  | .enqueue data => (q.enqueue data).map (fun q' => (.done, q'))
  | .dequeue => q.dequeue.map (fun r => (.value r.1, r.2))
  | .front => q.front.map (fun x => (.value x, q))
  | .back => q.back.map (fun x => (.value x, q))
  | .empty => .ok (.flag q.empty, q)
  | .size => .ok (.count q.size, q)

/-- The replies to a sequence of calls made by a caller that catches `std::out_of_range`
(the throw comes before any assignment, so the queue is left adrs it was); a bad pointer
ends the run. -/
def observe (q : LinkedQueue α) : List (Call α) → List (Except QueueFault (Reply α))
  | [] => []
  | c :: cs =>
      match q.call c with
      | .ok (r, q') => .ok r :: observe q' cs
      | .error .fila_vazia => .error .fila_vazia :: observe q cs
      | .error .bad_pointer => [.error .bad_pointer]

/-- The first-in first-out queue of the claim, adrs a sequence of values: `enqueue` adds at
the end, `dequeue` takes the first value and fails on the empty sequence, `front` and
`back` give the first and the last value. -/
def fifo_call (xs : List α) : Call α → Except QueueFault (Reply α × List α)
  | .enqueue data => .ok (.done, xs ++ [data])
  | .dequeue =>
      match xs with
      | [] => .error .fila_vazia
      | x :: rest => .ok (.value x, rest)
  | .front =>
      match xs.head? with
      | none => .error .fila_vazia
      | some x => .ok (.value x, xs)
  | .back =>
      match xs.getLast? with
      | none => .error .fila_vazia
      | some x => .ok (.value x, xs)
  | .empty => .ok (.flag xs.isEmpty, xs)
  | .size => .ok (.count xs.length, xs)

/-- The replies of the first-in first-out queue to a sequence of calls. -/
def fifo_observe (xs : List α) : List (Call α) → List (Except QueueFault (Reply α))
  | [] => []
  | c :: cs =>
      match fifo_call xs c with
      | .ok (r, xs') => .ok r :: fifo_observe xs' cs
      | .error e => .error e :: fifo_observe xs cs

/-- The nodes at the addresses `adrs`, in this order, hold the values `xs`, each linked to
the next by `next_`. -/
def Path (heap : List (Option (Node α))) : List Nat → List α → Prop
  | [], xs => xs = []
  | a :: adrs, xs =>
      ∃ x rest nx, xs = x :: rest ∧ heap[a]? = some (some ⟨x, nx⟩) ∧
        (∀ b, adrs.head? = some b → nx = some b) ∧ Path heap adrs rest

/-- The queue `q` holds the values `xs`: `size_` counts them, and when there is one,
`head` leads through distinct live nodes holding `xs` to the node `tail` points to. -/
def Holds (q : LinkedQueue α) (xs : List α) : Prop :=
  q.size_ = xs.length ∧
    ∃ adrs : List Nat, adrs.Nodup ∧ Path q.heap adrs xs ∧
      (xs ≠ [] → q.head = adrs.head? ∧ q.tail = adrs.getLast?)

end LinkedQueue

/-! ## `avl_tree.h` -/

/-- `AVLTree<T>::Node`: `nullptr` is `null`; a node carries `data`, the cached
`height_`, and the owned `left` and `right` subtrees. -/
inductive AVLTree.Node (α : Type) where
  | null : AVLTree.Node α
  | node (data : α) (height_ : Int) (left right : AVLTree.Node α) : AVLTree.Node α
  deriving DecidableEq

/-- `AVLTree<T>`: the `root` pointer and the `size_` counter. -/
structure AVLTree (α : Type) where
  root : AVLTree.Node α
  size_ : Nat
  deriving DecidableEq

namespace AVLTree
namespace Node

variable {α : Type}

/-- `new Node(data_)`: `height_{0}`, both children `nullptr`. -/
def mk (data_ : α) : Node α := node data_ 0 null null

/-- `int height(Node* N)`. -/
def height : Node α → Int
  | null => 0
  | node _ h _ _ => h

/-- `simpleLeft(k2)` as a pair: the returned pointer `k1`, and the node `k2` as the
call leaves it (it is now the right child of `k1`). -/
def simpleLeftBoth : Node α → Except Fault (Node α × Node α)
  | node d2 _ (node d1 _ l1 r1) r2 =>
      let k2 := node d2 (max (height r1) (height r2) + 1) r1 r2
      .ok (node d1 (max (height l1) (height k2) + 1) l1 k2, k2)
  | _ => .error .null_deref

/-- `simpleRight(k2)` as a pair: the returned pointer `k1`, and the node `k2` as the
call leaves it (it is now the left child of `k1`). -/
def simpleRightBoth : Node α → Except Fault (Node α × Node α)
  | node d2 _ l2 (node d1 _ l1 r1) =>
      let k2 := node d2 (max (height l2) (height l1) + 1) l2 l1
      .ok (node d1 (max (height k2) (height r1) + 1) k2 r1, k2)
  | _ => .error .null_deref

/-- `Node* simpleLeft(Node* k2)`. -/
def simpleLeft (k2 : Node α) : Except Fault (Node α) :=
  (simpleLeftBoth k2).map Prod.fst

/-- `Node* simpleRight(Node* k2)`. -/
def simpleRight (k2 : Node α) : Except Fault (Node α) :=
  (simpleRightBoth k2).map Prod.fst

/-- `doubleLeft(k3)` as a pair: the returned pointer, and the node `k3` as the call
leaves it. -/
def doubleLeftBoth : Node α → Except Fault (Node α × Node α)
  | null => .error .null_deref
  | node d3 h3 l3 r3 => do
      let l ← simpleRight l3
      simpleLeftBoth (node d3 h3 l r3)

/-- `doubleRight(k3)` as a pair: the returned pointer, and the node `k3` as the call
leaves it. -/
def doubleRightBoth : Node α → Except Fault (Node α × Node α)
  | null => .error .null_deref
  | node d3 h3 l3 r3 => do
      let r ← simpleLeft r3
      simpleRightBoth (node d3 h3 l3 r)

/-- `Node* doubleLeft(Node* k3)`. -/
def doubleLeft (k3 : Node α) : Except Fault (Node α) :=
  (doubleLeftBoth k3).map Prod.fst

/-- `Node* doubleRight(Node* k3)`. -/
def doubleRight (k3 : Node α) : Except Fault (Node α) :=
  (doubleRightBoth k3).map Prod.fst

/-- `int get_balance(Node* node)`. -/
def get_balance : Node α → Int
  | null => 0
  | node _ _ l r => height l - height r

variable [LinearOrder α]

/-- The tail of `Node::insert` (lines 114-139), entered with `node` non-null and its
child already reassigned: height update, balance factor, the four rotation cases.
In the two double cases the source calls `doubleLeft(node)` / `doubleRight(node)`
without using the result and then returns `node`. -/
def insertFix (data_ : α) (d : α) (l r : Node α) : Except Fault (Node α) :=
  let nd := node d (max (height l) (height r) + 1) l r
  let balance := get_balance nd
  if balance > 1 then
    match l with
    | null => .error .null_deref
    | node ld _ _ _ =>
        if data_ < ld then simpleLeft nd
        else if data_ > ld then (doubleLeftBoth nd).map Prod.snd
        else .ok nd
  else if balance < -1 then
    match r with
    | null => .error .null_deref
    | node rd _ _ _ =>
        if data_ > rd then simpleRight nd
        else if data_ < rd then (doubleRightBoth nd).map Prod.snd
        else .ok nd
  else .ok nd

/-- `Node* insert(Node* node, const T& data_)`. -/
def insert : Node α → α → Except Fault (Node α)
  | null, data_ => .ok (mk data_)
  | node d _ l r, data_ =>
      if data_ < d then do
        let l' ← insert l data_
        insertFix data_ d l' r
      else if data_ > d then do
        let r' ← insert r data_
        insertFix data_ d l r'
      else .error .invalid_element

/-- `Node* minimum(Node* node)`. -/
def minimum : Node α → Except Fault (Node α)
  | null => .error .null_deref
  | node d h null r => .ok (node d h null r)
  | node _ _ (node ld lh ll lr) _ => minimum (node ld lh ll lr)

/-- The tail of `Node::remove` (lines 179-200), entered with `node` non-null. -/
def removeFix (d : α) (l r : Node α) : Except Fault (Node α) :=
  let nd := node d (max (height l) (height r) + 1) l r
  let balance := get_balance nd
  if balance > 1 ∧ get_balance l ≥ 0 then simpleLeft nd
  else if balance > 1 ∧ get_balance l < 0 then doubleLeft nd
  else if balance < -1 ∧ get_balance r ≤ 0 then simpleRight nd
  else if balance < -1 ∧ get_balance r > 0 then doubleRight nd
  else .ok nd

/-- `Node* remove(const T& data_)`, called on `this`. The second test of the source
reads `data > node->data` with `node == this`, i.e. it compares the node's own value
with itself. -/
def remove (data_ : α) : Node α → Except Fault (Node α)
  | null => .error .null_deref
  | node d _ l r =>
      if data_ < d then do
        let l' ← remove data_ l
        removeFix d l' r
      else if d > d then do
        let r' ← remove data_ r
        removeFix d l r'
      else
        match l, r with
        | null, null => .ok null
        | null, node rd _ rl rr => removeFix rd rl rr
        | node ld _ ll lr, null => removeFix ld ll lr
        | node ld lh ll lr, node rd rh rl rr => do
            let tmp ← minimum (node rd rh rl rr)
            match tmp with
            | null => .error .null_deref
            | node td _ _ _ =>
                let r' ← remove td (node rd rh rl rr)
                removeFix td (node ld lh ll lr) r'

/-- `bool contains(const T& data_) const`, called on `this`; every call site tests
the pointer against `nullptr` first. -/
def contains (data_ : α) : Node α → Bool
  | null => false
  | node d _ l r =>
      if data_ = d then true
      else if data_ < d ∧ l ≠ null then contains data_ l
      else if data_ > d ∧ r ≠ null then contains data_ r
      else false

/-- `void pre_order(ArrayList<T>& v) const`; `v` is the sequence of values pushed so far. -/
def pre_order : Node α → List α → List α
  | null, v => v
  | node d _ l r, v => pre_order r (pre_order l (v ++ [d]))

/-- `void in_order(ArrayList<T>& v) const`; `v` is the sequence of values pushed so far. -/
def in_order : Node α → List α → List α
  | null, v => v
  | node d _ l r, v => in_order r (in_order l v ++ [d])

/-- `void post_order(ArrayList<T>& v) const`; `v` is the sequence of values pushed so far. -/
def post_order : Node α → List α → List α
  | null, v => v
  | node d _ l r, v => post_order r (post_order l v) ++ [d]

/-- `void pre_order(ArrayList<T>& v) const`, pushing into the container `v`. -/
def pre_order_into : Node α → ArrayList α → Except ListFault (ArrayList α)
  | null, v => .ok v
  | node d _ l r, v => do
      let v1 ← v.push_back d
      let v2 ← pre_order_into l v1
      pre_order_into r v2

/-- `void in_order(ArrayList<T>& v) const`, pushing into the container `v`. -/
def in_order_into : Node α → ArrayList α → Except ListFault (ArrayList α)
  | null, v => .ok v
  | node d _ l r, v => do
      let v1 ← in_order_into l v
      let v2 ← v1.push_back d
      in_order_into r v2

/-- `void post_order(ArrayList<T>& v) const`, pushing into the container `v`. -/
def post_order_into : Node α → ArrayList α → Except ListFault (ArrayList α)
  | null, v => .ok v
  | node d _ l r, v => do
      let v1 ← post_order_into l v
      let v2 ← post_order_into r v1
      v2.push_back d

end Node

variable {α : Type} [LinearOrder α]

/-- The tree as constructed: `root{nullptr}`, `size_{0u}`. -/
def init : AVLTree α := ⟨.null, 0⟩

/-- `bool AVLTree<T>::empty() const`. -/
def empty (t : AVLTree α) : Bool := if t.size_ = 0 then true else false

/-- `std::size_t AVLTree<T>::size() const`. -/
def size (t : AVLTree α) : Nat := t.size_

/-- `void AVLTree<T>::insert(const T& data)`. -/
def insert (t : AVLTree α) (data : α) : Except Fault (AVLTree α) := do
  let root ← Node.insert t.root data
  .ok ⟨root, t.size_ + 1⟩

/-- `void AVLTree<T>::remove(const T& data)`. -/
def remove (t : AVLTree α) (data : α) : Except Fault (AVLTree α) :=
  if t.empty then .error .empty_tree
  else do
    let root ← Node.remove data t.root
    .ok ⟨root, t.size_ - 1⟩

/-- `bool AVLTree<T>::contains(const T& data) const`. -/
def contains (t : AVLTree α) (data : α) : Bool :=
  if t.root ≠ .null then Node.contains data t.root else false

/-- `int AVLTree<T>::height() const`. -/
def height (t : AVLTree α) : Int := Node.height t.root

/-- `ArrayList<T> AVLTree<T>::pre_order() const`, as the sequence of pushed values. -/
def pre_order (t : AVLTree α) : List α :=
  if t.root ≠ .null then Node.pre_order t.root [] else []

/-- `ArrayList<T> AVLTree<T>::in_order() const`, as the sequence of pushed values. -/
def in_order (t : AVLTree α) : List α :=
  if t.root ≠ .null then Node.in_order t.root [] else []

/-- `ArrayList<T> AVLTree<T>::post_order() const`, as the sequence of pushed values. -/
def post_order (t : AVLTree α) : List α :=
  if t.root ≠ .null then Node.post_order t.root [] else []

/-- `ArrayList<T> AVLTree<T>::pre_order() const` with its container: `v` is declared by
`ArrayList<T> v;` (the default constructor, which leaves the members `raw`), filled and
returned. -/
def pre_order_array (raw : ArrayList α) (t : AVLTree α) : Except ListFault (ArrayList α) :=
  if t.root ≠ .null then Node.pre_order_into t.root (ArrayList.ctor_default raw)
  else .ok (ArrayList.ctor_default raw)

/-- `ArrayList<T> AVLTree<T>::in_order() const` with its container. -/
def in_order_array (raw : ArrayList α) (t : AVLTree α) : Except ListFault (ArrayList α) :=
  if t.root ≠ .null then Node.in_order_into t.root (ArrayList.ctor_default raw)
  else .ok (ArrayList.ctor_default raw)

/-- `ArrayList<T> AVLTree<T>::post_order() const` with its container. -/
def post_order_array (raw : ArrayList α) (t : AVLTree α) : Except ListFault (ArrayList α) :=
  if t.root ≠ .null then Node.post_order_into t.root (ArrayList.ctor_default raw)
  else .ok (ArrayList.ctor_default raw)

/-- A public mutating call. -/
inductive Op (α : Type) where
  | insert (data : α)
  | remove (data : α)
  deriving DecidableEq

/-- One call on the tree. -/
def apply (t : AVLTree α) : Op α → Except Fault (AVLTree α)
  | .insert v => t.insert v
  | .remove v => t.remove v

/-- A sequence of calls made by a caller that catches `std::out_of_range`: a call that
throws leaves the object as it was (both throws happen before any assignment), a null
dereference ends the run. -/
def run (t : AVLTree α) : List (Op α) → Except Fault (AVLTree α)
  | [] => .ok t
  | op :: ops =>
      match t.apply op with
      | .ok t' => run t' ops
      | .error .null_deref => .error .null_deref
      | .error _ => run t ops

/-! ## The specification's notions -/

/-- Height as the specification defines it: `height(empty) = 0`,
`height(node) = 1 + max(height(node.left), height(node.right))`. -/
def Node.spec_height : Node α → Int
  | .null => 0
  | .node _ _ l r => 1 + max (Node.spec_height l) (Node.spec_height r)

/-- The specification's balance invariant: every node has
`|height(left) − height(right)| ≤ 1` for the recursively defined height. -/
def Node.spec_balanced : Node α → Bool
  | .null => true
  | .node _ _ l r =>
      decide (|Node.spec_height l - Node.spec_height r| ≤ 1)
        && Node.spec_balanced l && Node.spec_balanced r

/-- The specification's height invariant: the cached `height_` of every node equals the
recursively defined height of its subtree. -/
def Node.spec_cached : Node α → Bool
  | .null => true
  | .node d h l r =>
      decide (h = Node.spec_height (.node d h l r))
        && Node.spec_cached l && Node.spec_cached r

theorem Node.in_order_acc (n : Node α) (v : List α) :
    n.in_order v = v ++ n.in_order [] := by
  induction n generalizing v with
  | null => simp [Node.in_order]
  | node d h l r ihl ihr =>
      simp only [Node.in_order]
      rw [ihr (l.in_order v ++ [d]), ihl v, ihr (l.in_order [] ++ [d])]
      simp

theorem Node.in_order_node (d : α) (h : Int) (l r : Node α) :
    (Node.node d h l r).in_order [] = l.in_order [] ++ d :: r.in_order [] := by
  simp only [Node.in_order]
  rw [Node.in_order_acc r]
  simp

theorem in_order_eq (t : AVLTree α) : t.in_order = t.root.in_order [] := by
  unfold AVLTree.in_order
  split
  · rfl
  · next h =>
      have : t.root = .null := by simpa using h
      simp [this, Node.in_order]

/-- The values of a node are strictly ascending exactly when both subtrees are and the
node's value separates them. -/
theorem Node.sorted_node_iff (d : α) (h : Int) (l r : Node α) :
    ((Node.node d h l r).in_order []).Sorted (· < ·) ↔
      (l.in_order []).Sorted (· < ·) ∧ (r.in_order []).Sorted (· < ·) ∧
      (∀ x ∈ l.in_order [], x < d) ∧ (∀ y ∈ r.in_order [], d < y) := by
  rw [Node.in_order_node]
  simp only [List.Sorted, List.pairwise_append, List.pairwise_cons, List.mem_cons]
  constructor
  · rintro ⟨hl, ⟨hd, hr⟩, hlr⟩
    exact ⟨hl, hr, fun x hx => hlr x hx d (Or.inl rfl), hd⟩
  · rintro ⟨hl, hr, hld, hdr⟩
    refine ⟨hl, ⟨hdr, hr⟩, ?_⟩
    rintro x hx y (rfl | hy)
    · exact hld x hx
    · exact lt_trans (hld x hx) (hdr y hy)

/-! ## Rotations -/

theorem Node.simpleLeftBoth_in_order {n a b : Node α}
    (h : Node.simpleLeftBoth n = .ok (a, b)) :
    a.in_order [] = n.in_order [] ∧ (b.in_order []).Sublist (n.in_order []) := by
  unfold Node.simpleLeftBoth at h
  split at h
  · next d2 h2 d1 h1 l1 r1 r2 =>
      simp only [Except.ok.injEq, Prod.mk.injEq] at h
      obtain ⟨rfl, rfl⟩ := h
      simp only [Node.in_order_node]
      refine ⟨by simp, ?_⟩
      have : (l1.in_order [] ++ d1 :: r1.in_order []) ++ d2 :: r2.in_order [] =
          (l1.in_order [] ++ [d1]) ++ (r1.in_order [] ++ d2 :: r2.in_order []) := by simp
      rw [this]
      exact List.sublist_append_right _ _
  · cases h

theorem Node.simpleRightBoth_in_order {n a b : Node α}
    (h : Node.simpleRightBoth n = .ok (a, b)) :
    a.in_order [] = n.in_order [] ∧ (b.in_order []).Sublist (n.in_order []) := by
  unfold Node.simpleRightBoth at h
  split at h
  · next d2 h2 l2 d1 h1 l1 r1 =>
      simp only [Except.ok.injEq, Prod.mk.injEq] at h
      obtain ⟨rfl, rfl⟩ := h
      simp only [Node.in_order_node]
      refine ⟨by simp, ?_⟩
      have : l2.in_order [] ++ d2 :: (l1.in_order [] ++ d1 :: r1.in_order []) =
          (l2.in_order [] ++ d2 :: l1.in_order []) ++ (d1 :: r1.in_order []) := by simp
      rw [this]
      exact List.sublist_append_left _ _
  · cases h

theorem Node.simpleLeft_in_order {n a : Node α} (h : Node.simpleLeft n = .ok a) :
    a.in_order [] = n.in_order [] := by
  unfold Node.simpleLeft at h
  cases hb : Node.simpleLeftBoth n with
  | error e => rw [hb] at h; cases h
  | ok p =>
      obtain ⟨x, y⟩ := p
      rw [hb] at h
      simp only [Except.map, Except.ok.injEq] at h
      subst h
      exact (Node.simpleLeftBoth_in_order hb).1

theorem Node.simpleRight_in_order {n a : Node α} (h : Node.simpleRight n = .ok a) :
    a.in_order [] = n.in_order [] := by
  unfold Node.simpleRight at h
  cases hb : Node.simpleRightBoth n with
  | error e => rw [hb] at h; cases h
  | ok p =>
      obtain ⟨x, y⟩ := p
      rw [hb] at h
      simp only [Except.map, Except.ok.injEq] at h
      subst h
      exact (Node.simpleRightBoth_in_order hb).1

theorem Node.doubleLeftBoth_in_order {n a b : Node α}
    (h : Node.doubleLeftBoth n = .ok (a, b)) :
    a.in_order [] = n.in_order [] ∧ (b.in_order []).Sublist (n.in_order []) := by
  cases n with
  | null => cases h
  | node d3 h3 l3 r3 =>
      simp only [Node.doubleLeftBoth] at h
      cases hl : Node.simpleRight l3 with
      | error e => rw [hl] at h; cases h
      | ok l =>
          rw [hl] at h
          have hs := Node.simpleLeftBoth_in_order h
          have hl' := Node.simpleRight_in_order hl
          simp only [Node.in_order_node, hl'] at hs ⊢
          exact hs

theorem Node.doubleRightBoth_in_order {n a b : Node α}
    (h : Node.doubleRightBoth n = .ok (a, b)) :
    a.in_order [] = n.in_order [] ∧ (b.in_order []).Sublist (n.in_order []) := by
  cases n with
  | null => cases h
  | node d3 h3 l3 r3 =>
      simp only [Node.doubleRightBoth] at h
      cases hr : Node.simpleLeft r3 with
      | error e => rw [hr] at h; cases h
      | ok r =>
          rw [hr] at h
          have hs := Node.simpleRightBoth_in_order h
          have hr' := Node.simpleLeft_in_order hr
          simp only [Node.in_order_node, hr'] at hs ⊢
          exact hs

theorem Node.doubleLeft_in_order {n a : Node α} (h : Node.doubleLeft n = .ok a) :
    a.in_order [] = n.in_order [] := by
  unfold Node.doubleLeft at h
  cases hb : Node.doubleLeftBoth n with
  | error e => rw [hb] at h; cases h
  | ok p =>
      obtain ⟨x, y⟩ := p
      rw [hb] at h
      simp only [Except.map, Except.ok.injEq] at h
      subst h
      exact (Node.doubleLeftBoth_in_order hb).1

theorem Node.doubleRight_in_order {n a : Node α} (h : Node.doubleRight n = .ok a) :
    a.in_order [] = n.in_order [] := by
  unfold Node.doubleRight at h
  cases hb : Node.doubleRightBoth n with
  | error e => rw [hb] at h; cases h
  | ok p =>
      obtain ⟨x, y⟩ := p
      rw [hb] at h
      simp only [Except.map, Except.ok.injEq] at h
      subst h
      exact (Node.doubleRightBoth_in_order hb).1

/-- The argument node as a discarded double rotation leaves it holds a subsequence of
the values it held before. -/
theorem Node.doubleLeftBoth_snd_sublist {n a : Node α}
    (h : (Node.doubleLeftBoth n).map Prod.snd = .ok a) :
    (a.in_order []).Sublist (n.in_order []) := by
  cases hb : Node.doubleLeftBoth n with
  | error e => rw [hb] at h; cases h
  | ok p =>
      obtain ⟨x, y⟩ := p
      rw [hb] at h
      simp only [Except.map, Except.ok.injEq] at h
      subst h
      exact (Node.doubleLeftBoth_in_order hb).2

theorem Node.doubleRightBoth_snd_sublist {n a : Node α}
    (h : (Node.doubleRightBoth n).map Prod.snd = .ok a) :
    (a.in_order []).Sublist (n.in_order []) := by
  cases hb : Node.doubleRightBoth n with
  | error e => rw [hb] at h; cases h
  | ok p =>
      obtain ⟨x, y⟩ := p
      rw [hb] at h
      simp only [Except.map, Except.ok.injEq] at h
      subst h
      exact (Node.doubleRightBoth_in_order hb).2

/-! ## Insertion keeps the values ordered -/

/-- Whatever the tail of `Node::insert` returns holds a subsequence of the values of
the node it was entered with. -/
theorem Node.insertFix_sublist {data_ d : α} {l r t : Node α}
    (h : Node.insertFix data_ d l r = .ok t) :
    (t.in_order []).Sublist (l.in_order [] ++ d :: r.in_order []) := by
  rw [← Node.in_order_node d (max (Node.height l) (Node.height r) + 1) l r]
  unfold Node.insertFix at h
  simp only at h
  split at h
  · split at h
    · cases h
    · split at h
      · rw [Node.simpleLeft_in_order h]
      · split at h
        · exact Node.doubleLeftBoth_snd_sublist h
        · cases h; exact List.Sublist.refl _
  · split at h
    · split at h
      · cases h
      · split at h
        · rw [Node.simpleRight_in_order h]
        · split at h
          · exact Node.doubleRightBoth_snd_sublist h
          · cases h; exact List.Sublist.refl _
    · cases h; exact List.Sublist.refl _

/-- A completed `Node::insert` on an ordered subtree returns an ordered subtree whose
values are among the old ones and the inserted one. -/
theorem Node.insert_sorted {t t' : Node α} {v : α}
    (hs : (t.in_order []).Sorted (· < ·)) (h : Node.insert t v = .ok t') :
    (t'.in_order []).Sorted (· < ·) ∧ ∀ x ∈ t'.in_order [], x = v ∨ x ∈ t.in_order [] := by
  induction t generalizing t' with
  | null =>
      simp only [Node.insert, Except.ok.injEq] at h
      subst h
      simp [Node.mk, Node.in_order]
  | node d hh l r ihl ihr =>
      rw [Node.sorted_node_iff] at hs
      obtain ⟨hl, hr, hld, hdr⟩ := hs
      simp only [Node.insert] at h
      split at h
      · next hlt =>
          cases hi : Node.insert l v with
          | error e => rw [hi] at h; cases h
          | ok l' =>
              rw [hi] at h
              have hsub := Node.insertFix_sublist h
              obtain ⟨hl', hmem⟩ := ihl hl hi
              have hnode : ((Node.node d hh l' r).in_order []).Sorted (· < ·) := by
                rw [Node.sorted_node_iff]
                refine ⟨hl', hr, ?_, hdr⟩
                intro x hx
                rcases hmem x hx with rfl | hx'
                · exact hlt
                · exact hld x hx'
              rw [Node.in_order_node] at hnode
              refine ⟨hnode.sublist hsub, ?_⟩
              intro x hx
              have hx' := hsub.subset hx
              rw [Node.in_order_node]
              simp only [List.mem_append, List.mem_cons] at hx' ⊢
              rcases hx' with hx' | rfl | hx'
              · rcases hmem x hx' with rfl | h1
                · exact Or.inl rfl
                · exact Or.inr (Or.inl h1)
              · exact Or.inr (Or.inr (Or.inl rfl))
              · exact Or.inr (Or.inr (Or.inr hx'))
      · split at h
        · next hnlt hgt =>
            cases hi : Node.insert r v with
            | error e => rw [hi] at h; cases h
            | ok r' =>
                rw [hi] at h
                have hsub := Node.insertFix_sublist h
                obtain ⟨hr', hmem⟩ := ihr hr hi
                have hnode : ((Node.node d hh l r').in_order []).Sorted (· < ·) := by
                  rw [Node.sorted_node_iff]
                  refine ⟨hl, hr', hld, ?_⟩
                  intro x hx
                  rcases hmem x hx with rfl | hx'
                  · exact hgt
                  · exact hdr x hx'
                rw [Node.in_order_node] at hnode
                refine ⟨hnode.sublist hsub, ?_⟩
                intro x hx
                have hx' := hsub.subset hx
                rw [Node.in_order_node]
                simp only [List.mem_append, List.mem_cons] at hx' ⊢
                rcases hx' with hx' | rfl | hx'
                · exact Or.inr (Or.inl hx')
                · exact Or.inr (Or.inr (Or.inl rfl))
                · rcases hmem x hx' with rfl | h1
                  · exact Or.inl rfl
                  · exact Or.inr (Or.inr (Or.inr h1))
        · cases h

/-! ## Removal keeps the values ordered -/

/-- The tail of `Node::remove` only rotates: it keeps the in-order sequence. -/
theorem Node.removeFix_in_order {d : α} {l r t : Node α}
    (h : Node.removeFix d l r = .ok t) :
    t.in_order [] = l.in_order [] ++ d :: r.in_order [] := by
  rw [← Node.in_order_node d (max (Node.height l) (Node.height r) + 1) l r]
  unfold Node.removeFix at h
  simp only at h
  split at h
  · exact Node.simpleLeft_in_order h
  · split at h
    · exact Node.doubleLeft_in_order h
    · split at h
      · exact Node.simpleRight_in_order h
      · split at h
        · exact Node.doubleRight_in_order h
        · cases h; rfl

/-- `minimum` returns the leftmost node: its value is the first of the in-order
sequence. -/
theorem Node.minimum_head {n m : Node α} (h : Node.minimum n = .ok m) :
    ∃ td th tr, m = .node td th .null tr ∧
      ∃ rest, n.in_order [] = td :: rest := by
  induction n with
  | null => cases h
  | node d hh l r ihl _ =>
      cases l with
      | null =>
          simp only [Node.minimum, Except.ok.injEq] at h
          subst h
          refine ⟨d, hh, r, rfl, r.in_order [], ?_⟩
          rw [Node.in_order_node]
          simp [Node.in_order]
      | node ld lh ll lr =>
          simp only [Node.minimum] at h
          obtain ⟨td, th, tr, hm, rest, hrest⟩ := ihl h
          refine ⟨td, th, tr, hm, rest ++ d :: r.in_order [], ?_⟩
          rw [Node.in_order_node, hrest]
          simp

/-- Removing the value of the leftmost node of an ordered subtree removes exactly the
first value of its in-order sequence. -/
theorem Node.remove_minimum {n n' : Node α} {td : α} {th : Int} {tr : Node α}
    (hs : (n.in_order []).Sorted (· < ·))
    (hm : Node.minimum n = .ok (.node td th .null tr))
    (h : Node.remove td n = .ok n') :
    n.in_order [] = td :: n'.in_order [] := by
  induction n generalizing n' with
  | null => cases hm
  | node d hh l r ihl _ =>
      rw [Node.sorted_node_iff] at hs
      obtain ⟨hl, _, hld, _⟩ := hs
      cases l with
      | null =>
          simp only [Node.minimum, Except.ok.injEq, Node.node.injEq] at hm
          obtain ⟨rfl, -, -, rfl⟩ := hm
          rw [Node.remove.eq_def] at h
          simp only [lt_irrefl, gt_iff_lt, if_false] at h
          cases r with
          | null =>
              simp only [Except.ok.injEq] at h
              subst h
              simp [Node.in_order]
          | node rd rh rl rr =>
              simp only at h
              rw [Node.removeFix_in_order h, Node.in_order_node, Node.in_order_node]
              simp [Node.in_order]
      | node ld lh ll lr =>
          simp only [Node.minimum] at hm
          obtain ⟨td', th', tr', hm', rest, hrest⟩ := Node.minimum_head hm
          simp only [Node.node.injEq] at hm'
          obtain ⟨rfl, -, -⟩ := hm'
          have hlt : td < d := hld td (by rw [hrest]; exact List.mem_cons_self _ _)
          rw [Node.remove.eq_def] at h
          simp only [hlt, if_true] at h
          cases hi : Node.remove td (Node.node ld lh ll lr) with
          | error e => rw [hi] at h; cases h
          | ok l' =>
              rw [hi] at h
              have hh' : Node.removeFix d l' r = .ok n' := h
              rw [Node.removeFix_in_order hh', Node.in_order_node d hh, ihl hl hm hi]
              simp

/-- A completed `Node::remove` on an ordered subtree returns a subtree holding a
subsequence of the old values. -/
theorem Node.remove_sublist {t t' : Node α} {v : α}
    (hs : (t.in_order []).Sorted (· < ·)) (h : Node.remove v t = .ok t') :
    (t'.in_order []).Sublist (t.in_order []) := by
  induction t generalizing t' v with
  | null => cases h
  | node d hh l r ihl ihr =>
      have hs' := hs
      rw [Node.sorted_node_iff] at hs'
      obtain ⟨hl, hr, hld, hdr⟩ := hs'
      rw [Node.remove.eq_def] at h
      simp only at h
      split at h
      · cases hi : Node.remove v l with
        | error e => rw [hi] at h; cases h
        | ok l' =>
            rw [hi] at h
            have hh' : Node.removeFix d l' r = .ok t' := h
            rw [Node.removeFix_in_order hh', Node.in_order_node]
            exact List.Sublist.append (ihl hl hi) (List.Sublist.refl _)
      · split at h
        · next hdd => exact absurd hdd (lt_irrefl d)
        · split at h
          · cases h
            simp [Node.in_order]
          · rw [Node.removeFix_in_order h, Node.in_order_node, Node.in_order_node]
            simp only [Node.in_order, List.nil_append]
            exact List.Sublist.cons _ (List.Sublist.refl _)
          · rw [Node.removeFix_in_order h, Node.in_order_node, Node.in_order_node]
            exact List.sublist_append_left _ _
          · next ld lh ll lr rd rh rl rr =>
              cases hm : Node.minimum (Node.node rd rh rl rr) with
              | error e => rw [hm] at h; cases h
              | ok tmp =>
                  rw [hm] at h
                  obtain ⟨td, th, tr, rfl, rest, hrest⟩ := Node.minimum_head hm
                  have h2 : (Node.remove td (Node.node rd rh rl rr) >>= fun r' =>
                      Node.removeFix td (Node.node ld lh ll lr) r') = .ok t' := h
                  cases hi : Node.remove td (Node.node rd rh rl rr) with
                  | error e => rw [hi] at h2; cases h2
                  | ok r' =>
                      rw [hi] at h2
                      have hh' : Node.removeFix td (Node.node ld lh ll lr) r' = .ok t' := h2
                      rw [Node.removeFix_in_order hh', Node.in_order_node d hh,
                        Node.remove_minimum hr hm hi]
                      refine List.Sublist.append (List.Sublist.refl _) ?_
                      exact List.Sublist.cons _ (List.Sublist.refl _)

theorem Node.remove_sorted {t t' : Node α} {v : α}
    (hs : (t.in_order []).Sorted (· < ·)) (h : Node.remove v t = .ok t') :
    (t'.in_order []).Sorted (· < ·) :=
  hs.sublist (Node.remove_sublist hs h)

/-! ## Search -/

/-- On an ordered subtree `Node::insert` of a stored value reaches the `throw`. -/
theorem Node.insert_stored {t : Node α} {v : α} (hs : (t.in_order []).Sorted (· < ·))
    (hv : v ∈ t.in_order []) : Node.insert t v = .error .invalid_element := by
  induction t with
  | null => simp [Node.in_order] at hv
  | node d hh l r ihl ihr =>
      rw [Node.sorted_node_iff] at hs
      obtain ⟨hl, hr, hld, hdr⟩ := hs
      rw [Node.in_order_node] at hv
      simp only [List.mem_append, List.mem_cons] at hv
      simp only [Node.insert]
      rcases hv with hv | rfl | hv
      · rw [if_pos (hld v hv), ihl hl hv]
        rfl
      · simp
      · rw [if_neg (not_lt_of_lt (hdr v hv)), if_pos (hdr v hv), ihr hr hv]
        rfl

/-! ## Sequences of calls -/

theorem tree_insert_sorted {t t' : AVLTree α} {v : α}
    (hs : (t.root.in_order []).Sorted (· < ·)) (h : t.insert v = .ok t') :
    (t'.root.in_order []).Sorted (· < ·) := by
  unfold AVLTree.insert at h
  cases hi : Node.insert t.root v with
  | error e => rw [hi] at h; cases h
  | ok root =>
      rw [hi] at h
      cases h
      exact (Node.insert_sorted hs hi).1

theorem tree_remove_sorted {t t' : AVLTree α} {v : α}
    (hs : (t.root.in_order []).Sorted (· < ·)) (h : t.remove v = .ok t') :
    (t'.root.in_order []).Sorted (· < ·) := by
  unfold AVLTree.remove at h
  split at h
  · cases h
  · cases hi : Node.remove v t.root with
    | error e => rw [hi] at h; cases h
    | ok root =>
        rw [hi] at h
        cases h
        exact Node.remove_sorted hs hi

theorem apply_sorted {t t' : AVLTree α} {op : Op α}
    (hs : (t.root.in_order []).Sorted (· < ·)) (h : t.apply op = .ok t') :
    (t'.root.in_order []).Sorted (· < ·) := by
  cases op with
  | insert v => exact tree_insert_sorted hs h
  | remove v => exact tree_remove_sorted hs h

/-- Every state a sequence of calls ends in, started from an ordered state, is ordered. -/
theorem run_sorted {ops : List (Op α)} {t t' : AVLTree α}
    (hs : (t.root.in_order []).Sorted (· < ·)) (h : t.run ops = .ok t') :
    (t'.root.in_order []).Sorted (· < ·) := by
  induction ops generalizing t with
  | nil =>
      simp only [AVLTree.run, Except.ok.injEq] at h
      subst h
      exact hs
  | cons op ops ih =>
      simp only [AVLTree.run] at h
      cases ha : t.apply op with
      | ok t1 =>
          rw [ha] at h
          exact ih (apply_sorted hs ha) h
      | error e =>
          rw [ha] at h
          cases e with
          | null_deref => cases h
          | invalid_element => exact ih hs h
          | empty_tree => exact ih hs h

theorem init_sorted : ((init : AVLTree α).root.in_order []).Sorted (· < ·) := by
  simp [init, Node.in_order]

/-- Below every stored value the descent of `Node::remove` only goes left, and ends on
an absent child. -/
theorem Node.remove_below {n : Node α} {v : α} (hv : ∀ x ∈ n.in_order [], v < x) :
    Node.remove v n = .error .null_deref := by
  induction n with
  | null => rfl
  | node d hh l r ihl _ =>
      rw [Node.in_order_node] at hv
      have hd : v < d := hv d (by simp)
      have hl : Node.remove v l = .error .null_deref :=
        ihl (fun x hx => hv x (by simp [hx]))
      rw [Node.remove.eq_def]
      simp only [hd, if_true, hl]
      rfl

/-- Along a run of `insert` calls a tree with a root keeps `size_` non-zero. -/
theorem run_inserts_size {vs : List α} {t t' : AVLTree α}
    (hp : t.root ≠ .null → t.size_ ≠ 0) (h : t.run (vs.map Op.insert) = .ok t') :
    t'.root ≠ .null → t'.size_ ≠ 0 := by
  induction vs generalizing t with
  | nil =>
      simp only [List.map_nil, AVLTree.run, Except.ok.injEq] at h
      subst h
      exact hp
  | cons v vs ih =>
      simp only [List.map_cons, AVLTree.run, AVLTree.apply] at h
      cases ha : t.insert v with
      | ok t1 =>
          rw [ha] at h
          refine ih (fun _ => ?_) h
          unfold AVLTree.insert at ha
          cases hi : Node.insert t.root v with
          | error e => rw [hi] at ha; cases ha
          | ok root =>
              rw [hi] at ha
              cases ha
              exact Nat.succ_ne_zero _
      | error e =>
          rw [ha] at h
          cases e with
          | null_deref => cases h
          | invalid_element => exact ih hp h
          | empty_tree => exact ih hp h

end AVLTree

/-! ## The array list -/

namespace ArrayList

variable {α : Type}

theorem shift_of_le {index i : Nat} (cs : List α) (h : i ≤ index) :
    shift index i cs = .ok cs := by
  cases i with
  | zero => rfl
  | succ i =>
      simp only [shift]
      rw [if_neg (by omega)]

theorem read_of_lt {cs : List α} {i : Nat} (h : i < cs.length) :
    read cs i = .ok (cs[i]) := by
  simp [read, List.getElem?_eq_getElem h]

theorem write_of_lt {cs : List α} {i : Nat} (x : α) (h : i < cs.length) :
    write cs i x = .ok (cs.set i x) := by
  simp [write, h]

theorem shift_spec (index : Nat) (i : Nat) (cs : List α) (h : i < cs.length) :
    ∃ cs', shift index i cs = .ok cs' ∧ cs'.length = cs.length ∧
      ∀ j, cs'[j]? = if index < j ∧ j ≤ i then cs[j - 1]? else cs[j]? := by
  induction i generalizing cs with
  | zero =>
      refine ⟨cs, rfl, rfl, fun j => ?_⟩
      rw [if_neg (by omega)]
  | succ i ih =>
      by_cases hi : i + 1 > index
      · have hr : read cs i = .ok (cs[i]) := read_of_lt (by omega)
        have hw : write cs (i + 1) (cs[i]) = .ok (cs.set (i + 1) (cs[i])) := write_of_lt _ h
        obtain ⟨cs', hs, hlen, hget⟩ := ih (cs.set (i + 1) (cs[i])) (by simp; omega)
        refine ⟨cs', ?_, by simpa using hlen, fun j => ?_⟩
        · rw [shift, if_pos hi, hr]
          show (write cs (i + 1) cs[i] >>= fun cs' => shift index i cs') = _
          rw [hw]
          exact hs
        · rw [hget j]
          by_cases h1 : index < j ∧ j ≤ i
          · rw [if_pos h1, if_pos ⟨h1.1, by omega⟩, List.getElem?_set_ne (by omega)]
          · rw [if_neg h1]
            by_cases h2 : j = i + 1
            · subst h2
              rw [if_pos ⟨by omega, le_refl _⟩, List.getElem?_set_self]
              simp [List.getElem?_eq_getElem (show i < cs.length by omega)]
              omega
            · rw [if_neg (by omega), List.getElem?_set_ne (by omega)]
      · refine ⟨cs, ?_, rfl, fun j => ?_⟩
        · simp only [shift, if_neg hi]
        · rw [if_neg (by omega)]

/-- The values of the new buffer after the shift and the store, cell by cell. -/
theorem take_set_shift {cs cs' : List α} {s index : Nat} (data : α)
    (hlen : cs'.length = cs.length) (hs : s < cs.length) (hi : index ≤ s)
    (hget : ∀ j, cs'[j]? = if index < j ∧ j ≤ s then cs[j - 1]? else cs[j]?) :
    (cs'.set index data).take (s + 1) =
      (cs.take s).take index ++ data :: (cs.take s).drop index := by
  have hl : ((cs.take s).take index).length = index := by
    simp only [List.length_take]
    omega
  apply List.ext_getElem?
  intro j
  rw [List.getElem?_take, List.getElem?_set, hget j]
  rcases Nat.lt_trichotomy j index with hj | hj | hj
  · rw [if_pos (show j < s + 1 by omega), if_neg (show ¬ index = j by omega),
      if_neg (show ¬ (index < j ∧ j ≤ s) by omega),
      List.getElem?_append_left (by rw [hl]; exact hj), List.getElem?_take, List.getElem?_take,
      if_pos hj, if_pos (show j < s by omega)]
  · subst hj
    rw [if_pos (show j < s + 1 by omega), if_pos rfl,
      if_pos (show j < cs'.length by omega),
      List.getElem?_append_right (by rw [hl]), hl, Nat.sub_self]
    simp
  · obtain ⟨k, rfl⟩ : ∃ k, j = index + 1 + k := ⟨j - index - 1, by omega⟩
    rw [if_neg (show ¬ index = index + 1 + k by omega),
      List.getElem?_append_right (by rw [hl]; omega), hl,
      show index + 1 + k - index = k + 1 by omega, List.getElem?_cons_succ,
      List.getElem?_drop, List.getElem?_take,
      show index + 1 + k - 1 = index + k by omega]
    by_cases hjs : index + k < s
    · rw [if_pos (show index + 1 + k < s + 1 by omega),
        if_pos (show index < index + 1 + k ∧ index + 1 + k ≤ s by omega), if_pos hjs]
    · rw [if_neg (show ¬ index + 1 + k < s + 1 by omega), if_neg hjs]

theorem insert_spec {l : ArrayList α} (data : α) {index : Nat} (hwf : l.wf)
    (hfull : l.size ≠ l.max_size) (hindex : index ≤ l.size) :
    ∃ l', l.insert data index = .ok l' ∧ l'.wf ∧ l'.size = l.size + 1 ∧
      l'.max_size = l.max_size ∧
      l'.toList = l.toList.take index ++ data :: l.toList.drop index := by
  obtain ⟨hlen, hle⟩ := hwf
  have hlt : l.size_ < l.contents.length := by
    rw [hlen]
    exact lt_of_le_of_ne hle hfull
  obtain ⟨cs', hs, hlen', hget⟩ := shift_spec index l.size_ l.contents hlt
  have hc : (if l.size > 0 then shift index l.size l.contents else .ok l.contents) =
      .ok cs' := by
    by_cases h0 : l.size > 0
    · rw [if_pos h0]; exact hs
    · rw [if_neg h0]
      have : l.size_ = 0 := by simpa [size] using h0
      rw [this] at hs
      exact hs
  have hw : write cs' index data = .ok (cs'.set index data) :=
    write_of_lt _ (by rw [hlen']; exact lt_of_le_of_lt hindex hlt)
  refine ⟨⟨cs'.set index data, l.size_ + 1, l.max_size_⟩, ?_, ?_, rfl, rfl, ?_⟩
  · unfold insert
    rw [if_neg (by simpa [full] using hfull), if_neg (by omega), hc]
    show (write cs' index data >>= fun c => _) = _
    rw [hw]
    rfl
  · refine ⟨by simp [hlen', hlen], ?_⟩
    show l.size_ + 1 ≤ l.max_size_
    have := lt_of_le_of_ne hle hfull
    omega
  · exact take_set_shift data hlen' hlt hindex hget

theorem ctor_wf [Inhabited α] (max_size : Nat) : (ctor max_size : ArrayList α).wf := by
  simp [wf, ctor]

theorem insert_full {l : ArrayList α} (data : α) (index : Nat) (h : l.size = l.max_size) :
    l.insert data index = .error .full_list := by
  unfold insert
  rw [if_pos (by simpa [full] using h)]

theorem insert_invalid {l : ArrayList α} (data : α) {index : Nat}
    (hfull : l.size ≠ l.max_size) (h : l.size < index) :
    l.insert data index = .error .invalid_index := by
  unfold insert
  rw [if_neg (by simpa [full] using hfull), if_pos h]

/-- What `push_back` does to a well-formed list. -/
theorem push_back_spec {l : ArrayList α} (data : α) (hwf : l.wf) :
    (l.size = l.max_size → l.push_back data = .error .full_list) ∧
    (l.size ≠ l.max_size → ∃ l', l.push_back data = .ok l' ∧ l'.wf ∧
      l'.size = l.size + 1 ∧ l'.max_size = l.max_size ∧ l'.toList = l.toList ++ [data]) := by
  refine ⟨fun h => insert_full data _ h, fun h => ?_⟩
  obtain ⟨l', h1, h2, h3, h4, h5⟩ := insert_spec data hwf h (le_refl l.size)
  refine ⟨l', h1, h2, h3, h4, ?_⟩
  have hlen : l.toList.length = l.size := by
    simp only [toList, size, List.length_take]
    have := hwf.1
    have := hwf.2
    omega
  rw [h5, List.take_of_length_le (by omega), List.drop_of_length_le (by omega)]

section
variable [DecidableEq α]

theorem find_loop_spec (l : ArrayList α) (data : α) (rem index : Nat)
    (hsum : index + rem = l.size_) (hlen : l.size_ ≤ l.contents.length) :
    find_loop l data rem index = .ok (index + List.indexOf data (l.toList.drop index)) := by
  induction rem generalizing index with
  | zero =>
      have hi : index = l.size_ := by omega
      subst hi
      have hd : l.toList.drop l.size_ = [] :=
        List.drop_of_length_le (by simp [toList])
      rw [hd]
      simp [find_loop, size]
  | succ rem ih =>
      have hi : index < l.contents.length := by omega
      have hti : index < l.toList.length := by
        simp only [toList, List.length_take]
        omega
      have hd : l.toList.drop index = l.contents[index] :: l.toList.drop (index + 1) := by
        rw [List.drop_eq_getElem_cons hti]
        congr 1
        simp [toList]
      rw [find_loop, read_of_lt hi]
      show (if l.contents[index] = data then _ else _) = _
      by_cases hx : l.contents[index] = data
      · rw [if_pos hx, hd, List.indexOf_cons_eq _ hx]
        rfl
      · rw [if_neg hx, hd, List.indexOf_cons_ne _ hx, ih (index + 1) (by omega)]
        congr 1
        omega

theorem find_spec (l : ArrayList α) (data : α) (hwf : l.wf) :
    l.find data =
      if l.size = 0 then .error .empty_list else .ok (List.indexOf data l.toList) := by
  unfold find empty
  by_cases h0 : l.size = 0
  · simp [h0]
  · simp only [h0, if_false]
    have := find_loop_spec l data l.size_ 0 (by simp) (by rw [hwf.1]; exact hwf.2)
    simpa [size] using this

end

theorem pushes_nil : Pushes (fun v : ArrayList α => .ok v) [] := by
  intro v hwf
  refine ⟨fun _ => ⟨v, rfl, hwf, rfl, rfl, by simp⟩, fun h => ?_⟩
  simp only [List.length_nil, Nat.add_zero] at h
  exact absurd hwf.2 (not_le_of_lt h)

theorem pushes_push_back (d : α) : Pushes (fun v : ArrayList α => v.push_back d) [d] := by
  intro v hwf
  obtain ⟨hfull, hok⟩ := push_back_spec d hwf
  have hle : v.size ≤ v.max_size := hwf.2
  constructor
  · intro h
    simp only [List.length_singleton] at h
    obtain ⟨v', e, w, s1, m1, l1⟩ := hok (by omega)
    exact ⟨v', e, w, m1, s1, l1⟩
  · intro h
    simp only [List.length_singleton] at h
    exact hfull (by omega)

theorem pushes_bind {f g : ArrayList α → Except ListFault (ArrayList α)} {xs ys : List α}
    (hf : Pushes f xs) (hg : Pushes g ys) : Pushes (fun v => f v >>= g) (xs ++ ys) := by
  intro v hwf
  obtain ⟨hf1, hf2⟩ := hf v hwf
  have hle : v.size ≤ v.max_size := hwf.2
  simp only [List.length_append]
  by_cases hx : v.size + xs.length ≤ v.max_size
  · obtain ⟨v1, e1, wf1, m1, s1, l1⟩ := hf1 hx
    obtain ⟨hg1, hg2⟩ := hg v1 wf1
    constructor
    · intro h
      obtain ⟨v2, e2, wf2, m2, s2, l2⟩ := hg1 (by omega)
      refine ⟨v2, ?_, wf2, by omega, by omega, ?_⟩
      · show f v >>= g = _
        rw [e1]
        exact e2
      · rw [l2, l1, List.append_assoc]
    · intro h
      show f v >>= g = _
      rw [e1]
      exact hg2 (by omega)
  · constructor
    · intro h
      omega
    · intro _
      show f v >>= g = _
      rw [hf2 (by omega)]
      rfl

end ArrayList

namespace AVLTree

variable {α : Type} [LinearOrder α]

/-! ## The three traversals -/

theorem Node.pre_order_acc (n : Node α) (v : List α) :
    n.pre_order v = v ++ n.pre_order [] := by
  induction n generalizing v with
  | null => simp [Node.pre_order]
  | node d h l r ihl ihr =>
      simp only [Node.pre_order]
      rw [ihr (l.pre_order (v ++ [d])), ihl (v ++ [d]), ihr (l.pre_order ([] ++ [d])),
        ihl ([] ++ [d])]
      simp

theorem Node.post_order_acc (n : Node α) (v : List α) :
    n.post_order v = v ++ n.post_order [] := by
  induction n generalizing v with
  | null => simp [Node.post_order]
  | node d h l r ihl ihr =>
      simp only [Node.post_order]
      rw [ihr (l.post_order v), ihl v, ihr (l.post_order [])]
      simp

theorem Node.pre_order_node (d : α) (h : Int) (l r : Node α) :
    (Node.node d h l r).pre_order [] = d :: (l.pre_order [] ++ r.pre_order []) := by
  simp only [Node.pre_order]
  rw [Node.pre_order_acc r, Node.pre_order_acc l]
  simp

theorem Node.post_order_node (d : α) (h : Int) (l r : Node α) :
    (Node.node d h l r).post_order [] = l.post_order [] ++ r.post_order [] ++ [d] := by
  simp only [Node.post_order]
  rw [Node.post_order_acc r]

theorem Node.pre_order_perm (n : Node α) : (n.pre_order []).Perm (n.in_order []) := by
  induction n with
  | null => simp [Node.pre_order, Node.in_order]
  | node d h l r ihl ihr =>
      rw [Node.pre_order_node, Node.in_order_node]
      exact (List.Perm.cons d (ihl.append ihr)).trans List.perm_middle.symm

theorem Node.post_order_perm (n : Node α) : (n.post_order []).Perm (n.in_order []) := by
  induction n with
  | null => simp [Node.post_order, Node.in_order]
  | node d h l r ihl ihr =>
      rw [Node.post_order_node, Node.in_order_node]
      have h1 : (l.post_order [] ++ r.post_order [] ++ [d]).Perm
          (d :: (l.post_order [] ++ r.post_order [])) :=
        List.perm_append_singleton d _
      exact h1.trans ((List.Perm.cons d (ihl.append ihr)).trans List.perm_middle.symm)

theorem pre_order_eq (t : AVLTree α) : t.pre_order = t.root.pre_order [] := by
  unfold AVLTree.pre_order
  split
  · rfl
  · next h =>
      have : t.root = .null := by simpa using h
      simp [this, Node.pre_order]

theorem post_order_eq (t : AVLTree α) : t.post_order = t.root.post_order [] := by
  unfold AVLTree.post_order
  split
  · rfl
  · next h =>
      have : t.root = .null := by simpa using h
      simp [this, Node.post_order]

/-! ## The traversals into the container -/

theorem Node.pre_order_into_pushes (n : Node α) :
    ArrayList.Pushes (Node.pre_order_into n) (n.pre_order []) := by
  induction n with
  | null => exact ArrayList.pushes_nil
  | node d h l r ihl ihr =>
      rw [Node.pre_order_node]
      exact ArrayList.pushes_bind (ArrayList.pushes_push_back d) (ArrayList.pushes_bind ihl ihr)

theorem Node.in_order_into_pushes (n : Node α) :
    ArrayList.Pushes (Node.in_order_into n) (n.in_order []) := by
  induction n with
  | null => exact ArrayList.pushes_nil
  | node d h l r ihl ihr =>
      rw [Node.in_order_node]
      exact ArrayList.pushes_bind ihl (ArrayList.pushes_bind (ArrayList.pushes_push_back d) ihr)

theorem Node.post_order_into_pushes (n : Node α) :
    ArrayList.Pushes (Node.post_order_into n) (n.post_order []) := by
  induction n with
  | null => exact ArrayList.pushes_nil
  | node d h l r ihl ihr =>
      rw [Node.post_order_node, List.append_assoc]
      exact ArrayList.pushes_bind ihl (ArrayList.pushes_bind ihr (ArrayList.pushes_push_back d))

/-! ## The claims -/

/-- C1 (the code breaks it). The claim: after a completed `insert(v)`, `contains(v)` is
true. In the state left by `insert(0), insert(3), insert(1)` the call `insert(2)`
completes, yet `contains(2)` is false: the right-left case calls `doubleRight(node)`
without using its result and returns the demoted `node`, so the promoted nodes 1, 2
and 3 leave the tree. -/
theorem C1_insert_then_contains_is_false :
    (init : AVLTree Nat).run [.insert 0, .insert 3, .insert 1] =
        .ok ⟨.node 0 2 .null (.node 3 1 (.node 1 0 .null .null) .null), 3⟩ ∧
      AVLTree.insert ⟨.node 0 2 .null (.node 3 1 (.node 1 0 .null .null) .null), 3⟩ 2 =
        .ok ⟨.node 0 1 .null .null, 4⟩ ∧
      AVLTree.contains ⟨.node 0 1 .null .null, 4⟩ 2 = false :=
  ⟨rfl, rfl, rfl⟩

/-- C2 (the code breaks it). The claim: `size()` equals the number of values `in_order()`
returns. After `insert(10), insert(40), insert(20), insert(30)` the tree holds the single
value 10 while `size()` is 4. -/
theorem C2_size_exceeds_in_order_length :
    ∃ t : AVLTree Nat,
      init.run [.insert 10, .insert 40, .insert 20, .insert 30] = .ok t ∧
      t.size = 4 ∧ t.in_order = [10] :=
  ⟨⟨.node 10 1 .null .null, 4⟩, rfl, rfl, rfl⟩

/-- C4 (the code breaks it). The claim: after every successful `insert` every node has
`|height(left) − height(right)| ≤ 1` for the recursively defined height. After
`insert(0), insert(1), insert(2)` the tree is the chain 0 → 1 → 2: the root has an empty
left subtree and a right subtree of height 2. A new node starts with `height_ = 0`, the
value `height` also gives for `nullptr`, so the balance factor at the root is only -1. -/
theorem C4_chain_is_unbalanced :
    ∃ t : AVLTree Nat,
      init.run [.insert 0, .insert 1, .insert 2] = .ok t ∧
      t.root = .node 0 2 .null (.node 1 1 .null (.node 2 0 .null .null)) ∧
      Node.spec_balanced t.root = false :=
  ⟨⟨.node 0 2 .null (.node 1 1 .null (.node 2 0 .null .null)), 3⟩, rfl, rfl, by decide⟩

/-- C5 (the code breaks it). The claim: after `remove(v)` of a stored `v`, `contains(v)`
is false. With 10 and 20 stored, `remove(20)` completes, and afterwards `contains(20)`
is true and `contains(10)` is false: the test for the right descent compares the
node's value with itself, so the node the search stands on is deleted. -/
theorem C5_remove_deletes_another_value :
    ∃ t t' : AVLTree Nat,
      init.run [.insert 10, .insert 20] = .ok t ∧ 20 ∈ t.in_order ∧
      t.remove 20 = .ok t' ∧ t'.contains 20 = true ∧ t'.contains 10 = false :=
  ⟨⟨.node 10 1 .null (.node 20 0 .null .null), 2⟩, ⟨.node 20 1 .null .null, 1⟩,
    rfl, by decide, rfl, rfl, rfl⟩

/-- C6. In every state reached from the empty tree by `insert` calls, `insert(v)` of a
stored value `v` throws the duplicate-value `std::out_of_range`, and the state the
caller is left with has the same `size()`, `height()`, `pre_order()`, `in_order()` and
`post_order()` as before the call. -/
theorem C6_duplicate_insert_rejected (vs : List α) (t : AVLTree α) (v : α)
    (h : init.run (vs.map Op.insert) = .ok t) (hv : v ∈ t.in_order) :
    t.insert v = .error .invalid_element ∧
      ∃ t', t.run [.insert v] = .ok t' ∧ t'.size = t.size ∧ t'.height = t.height ∧
        t'.pre_order = t.pre_order ∧ t'.in_order = t.in_order ∧
        t'.post_order = t.post_order := by
  have hs := run_sorted init_sorted h
  rw [in_order_eq] at hv
  have hi : t.insert v = .error .invalid_element := by
    unfold AVLTree.insert
    rw [Node.insert_stored hs hv]
    rfl
  refine ⟨hi, t, ?_, rfl, rfl, rfl, rfl, rfl⟩
  simp only [AVLTree.run, AVLTree.apply, hi]

theorem C6_duplicate_insert_rejected_witness :
    (init : AVLTree Nat).run ([20, 10, 30].map Op.insert) =
        .ok ⟨.node 20 1 (.node 10 0 .null .null) (.node 30 0 .null .null), 3⟩ ∧
      AVLTree.insert (⟨.node 20 1 (.node 10 0 .null .null) (.node 30 0 .null .null), 3⟩ :
        AVLTree Nat) 30 = .error .invalid_element :=
  ⟨rfl, (C6_duplicate_insert_rejected ([20, 10, 30] : List Nat)
    ⟨.node 20 1 (.node 10 0 .null .null) (.node 30 0 .null .null), 3⟩ 30 (by rfl) (by decide)).1⟩

/-- C8 (the code breaks it). The claim: `height()` equals the recursively defined height,
and a tree holding a single value has `height() == 1`. After `insert(5)` on the empty
tree `height()` is 0 while the recursively defined height is 1: `new Node` starts with
`height_ = 0` and `insert` returns it without the height update. -/
theorem C8_single_value_height_is_zero :
    ∃ t : AVLTree Nat,
      init.insert 5 = .ok t ∧ t.in_order = [5] ∧ t.height = 0 ∧
      Node.spec_height t.root = 1 ∧ Node.spec_cached t.root = false :=
  ⟨⟨.node 5 0 .null .null, 1⟩, rfl, rfl, rfl, rfl, by decide⟩

/-- C9 (the code breaks it). The claim: in a reachable state that stores no value,
`remove(v)` throws the tree-empty error. The calls `insert(20), insert(50), insert(30),
insert(40), remove(20)` leave `root == nullptr` with `size_ == 3`; `empty()` tests
`size_`, so `remove(7)` goes on to `root->remove(7)` and dereferences the null root. -/
theorem C9_remove_on_valueless_tree_dereferences_null :
    ∃ t : AVLTree Nat,
      init.run [.insert 20, .insert 50, .insert 30, .insert 40, .remove 20] = .ok t ∧
      t.root = .null ∧ t.in_order = [] ∧ t.size = 3 ∧
      t.remove 7 = .error .null_deref :=
  ⟨⟨.null, 3⟩, rfl, rfl, rfl, rfl, rfl⟩

/-- C10 (as stated it fails). The claim: `remove(v)` of a value that is not stored throws
a value-not-found error and changes nothing. With only 10 stored, `remove(5)` throws
nothing and ends in a null dereference, and `remove(20)` completes and leaves the tree
without values and with `size()` 0. -/
theorem C10_remove_absent_counterexample :
    ∃ t : AVLTree Nat,
      init.run [.insert 10] = .ok t ∧ t.empty = false ∧ t.in_order = [10] ∧
      t.remove 5 = .error .null_deref ∧
      t.remove 20 = .ok ⟨.null, 0⟩ ∧ AVLTree.in_order (⟨.null, 0⟩ : AVLTree Nat) = [] :=
  ⟨⟨.node 10 0 .null .null, 1⟩, rfl, rfl, rfl, rfl, rfl, rfl⟩

/-- C10 (amended). In every non-empty state reached from the empty tree by `insert`
calls, `remove(v)` of a value `v` smaller than every stored value throws no error: the
descent follows the left children to an absent one and dereferences it, so the call
returns nothing. -/
theorem C10_remove_below_all_dereferences_null (vs : List α) (t : AVLTree α) (v : α)
    (h : init.run (vs.map Op.insert) = .ok t) (hne : t.in_order ≠ [])
    (hv : ∀ x ∈ t.in_order, v < x) :
    t.remove v = .error .null_deref := by
  rw [in_order_eq] at hv hne
  have hroot : t.root ≠ .null := by
    intro hn
    rw [hn] at hne
    exact hne rfl
  have hsize : t.size_ ≠ 0 := run_inserts_size (fun hn => absurd rfl hn) h hroot
  unfold AVLTree.remove AVLTree.empty
  rw [if_neg hsize, Node.remove_below hv]
  rfl

theorem C10_remove_below_all_dereferences_null_witness :
    (init : AVLTree Nat).run ([10, 20].map Op.insert) =
        .ok ⟨.node 10 1 .null (.node 20 0 .null .null), 2⟩ ∧
      AVLTree.remove (⟨.node 10 1 .null (.node 20 0 .null .null), 2⟩ : AVLTree Nat) 5 =
        .error .null_deref :=
  ⟨rfl, C10_remove_below_all_dereferences_null ([10, 20] : List Nat)
    ⟨.node 10 1 .null (.node 20 0 .null .null), 2⟩ 5 (by rfl) (by decide) (by decide)⟩

/-- The sequences of values the three traversals hand to `push_back` have the same
length and hold the same multiset of values. -/
theorem pushed_values_are_permutations (t : AVLTree α) :
    t.pre_order.Perm t.in_order ∧ t.post_order.Perm t.in_order ∧
      t.pre_order.Perm t.post_order ∧
      t.pre_order.length = t.in_order.length ∧ t.post_order.length = t.in_order.length := by
  rw [pre_order_eq, post_order_eq, in_order_eq]
  have h1 := Node.pre_order_perm t.root
  have h2 := Node.post_order_perm t.root
  exact ⟨h1, h2, h1.trans h2.symm, h1.length_eq, h2.length_eq⟩

/-- C11 (the code breaks it). The claim: `pre_order()`, `in_order()` and `post_order()`
return sequences of the same length with the same multiset of values. Each of them
declares `ArrayList<T> v;`, and the default constructor only builds and discards another
list, so `contents`, `size_` and `max_size_` of `v` are never written. On the tree left
by `insert(20), insert(10), insert(30)`, with those members zero, `full()` holds and the
first `push_back` throws "full list": none of the three returns a sequence. The values
they were to push, `[20, 10, 30]`, `[10, 20, 30]` and `[10, 30, 20]`, are permutations
of each other. -/
theorem C11_traversals_return_no_sequence :
    ∃ t : AVLTree Nat,
      init.run [.insert 20, .insert 10, .insert 30] = .ok t ∧
      t.pre_order_array ⟨[], 0, 0⟩ = .error .full_list ∧
      t.in_order_array ⟨[], 0, 0⟩ = .error .full_list ∧
      t.post_order_array ⟨[], 0, 0⟩ = .error .full_list ∧
      t.pre_order = [20, 10, 30] ∧ t.in_order = [10, 20, 30] ∧
      t.post_order = [10, 30, 20] :=
  ⟨⟨.node 20 1 (.node 10 0 .null .null) (.node 30 0 .null .null), 3⟩,
    rfl, rfl, rfl, rfl, rfl, rfl, rfl⟩

/-- C12 (the code breaks it). The claim: inserting `a < b < c` in that order gives root
`b` with children `a` and `c`, `pre_order() == [b, a, c]`. After `insert(10), insert(20),
insert(30)` the tree is the chain 10 → 20 → 30 with `pre_order() == [10, 20, 30]`: the
node 30 enters with `height_ = 0`, so the balance factor at 10 is 0 - 1 and no rotation
is made. `in_order()` and `height() == 2` are as the claim says. -/
theorem C12_ascending_inserts_make_a_chain :
    ∃ t : AVLTree Nat,
      init.run [.insert 10, .insert 20, .insert 30] = .ok t ∧
      t.root = .node 10 2 .null (.node 20 1 .null (.node 30 0 .null .null)) ∧
      t.pre_order = [10, 20, 30] ∧ t.in_order = [10, 20, 30] ∧ t.height = 2 :=
  ⟨⟨.node 10 2 .null (.node 20 1 .null (.node 30 0 .null .null)), 3⟩, rfl, rfl, rfl, rfl, rfl⟩

/-- C13 (the code breaks it). The claim: inserting `c, a, b` with `a < b < c` triggers
the left-right double rotation and leaves `b` at the root, `pre_order() == [b, a, c]`.
After `insert(30), insert(10), insert(20)` the root is still 30 and `pre_order()` is
`[30, 10, 20]`: the balance factor at 30 is 1 - 0, so no rotation case is entered. -/
theorem C13_left_right_inserts_leave_the_root :
    ∃ t : AVLTree Nat,
      init.run [.insert 30, .insert 10, .insert 20] = .ok t ∧
      t.root = .node 30 2 (.node 10 1 .null (.node 20 0 .null .null)) .null ∧
      Node.get_balance t.root = 1 ∧ t.pre_order = [30, 10, 20] :=
  ⟨⟨.node 30 2 (.node 10 1 .null (.node 20 0 .null .null)) .null, 3⟩, rfl, rfl, rfl, rfl⟩

end AVLTree

namespace ArrayList

variable {α : Type}

theorem toList_length {l : ArrayList α} (hwf : l.wf) : l.toList.length = l.size := by
  simp only [toList, size, List.length_take]
  have := hwf.1
  have := hwf.2
  omega

/-- C15. For every list set up by `ArrayList(max_size)` and kept by its member functions,
every value and every index: `insert(data, index)` throws "full list" when
`size() == max_size()`, throws "invalid index" when the list is not full and
`index > size()` (both before any assignment, so the list is left as it was), and
otherwise returns with `size()` increased by 1 and with the old elements before `index`
in place, `data` at position `index`, and the old elements from `index` on one position
further. -/
theorem C15_insert_at_index (l : ArrayList α) (data : α) (index : Nat) (hwf : l.wf) :
    (l.size = l.max_size → l.insert data index = .error .full_list) ∧
    (l.size ≠ l.max_size → l.size < index → l.insert data index = .error .invalid_index) ∧
    (l.size ≠ l.max_size → index ≤ l.size →
      ∃ l', l.insert data index = .ok l' ∧ l'.wf ∧ l'.size = l.size + 1 ∧
        l'.max_size = l.max_size ∧
        l'.toList = l.toList.take index ++ data :: l.toList.drop index) :=
  ⟨fun h => insert_full data index h, fun hfull h => insert_invalid data hfull h,
    fun hfull h => insert_spec data hwf hfull h⟩

theorem C15_insert_at_index_witness :
    (ctor 4 : ArrayList Nat).push_back 1 >>= (fun l => l.push_back 2) >>=
        (fun l => l.push_back 3) = .ok ⟨[1, 2, 3, 0], 3, 4⟩ ∧
      (∃ l', insert (⟨[1, 2, 3, 0], 3, 4⟩ : ArrayList Nat) 9 1 = .ok l' ∧ l'.wf ∧
        l'.size = 3 + 1 ∧ l'.max_size = 4 ∧ l'.toList = [1, 9, 2, 3]) ∧
      insert (⟨[1, 2, 3, 0], 3, 4⟩ : ArrayList Nat) 9 5 = .error .invalid_index ∧
      insert (⟨[1, 9, 2, 3], 4, 4⟩ : ArrayList Nat) 7 0 = .error .full_list :=
  ⟨rfl,
    (C15_insert_at_index (⟨[1, 2, 3, 0], 3, 4⟩ : ArrayList Nat) 9 1 ⟨rfl, by decide⟩).2.2
      (by decide) (by decide),
    (C15_insert_at_index (⟨[1, 2, 3, 0], 3, 4⟩ : ArrayList Nat) 9 5 ⟨rfl, by decide⟩).2.1
      (by decide) (by decide),
    (C15_insert_at_index (⟨[1, 9, 2, 3], 4, 4⟩ : ArrayList Nat) 7 0 ⟨rfl, by decide⟩).1 rfl⟩

/-- C16 (as stated it fails). The claim: `find(data)` never fails, the empty list
included. On the list `ArrayList(10)` holds before any insertion, `find(5)` throws
"empty list", and so does `contains(5)`. -/
theorem C16_find_on_empty_list_throws :
    (ctor 10 : ArrayList Nat).size = 0 ∧
      (ctor 10 : ArrayList Nat).find 5 = .error .empty_list ∧
      (ctor 10 : ArrayList Nat).contains 5 = .error .empty_list :=
  ⟨rfl, rfl, rfl⟩

/-- C16 (amended). For every non-empty list and every value, `find(data)` returns the
index of the first element equal to `data`, or `size()` when no element equals `data`;
on the empty list it throws "empty list". -/
theorem C16_find_first_index [DecidableEq α] (l : ArrayList α) (data : α) (hwf : l.wf) :
    (l.size = 0 → l.find data = .error .empty_list) ∧
    (l.size ≠ 0 →
      l.find data = .ok (List.indexOf data l.toList) ∧
      (data ∈ l.toList → List.indexOf data l.toList < l.size) ∧
      (data ∉ l.toList → l.find data = .ok l.size)) := by
  have hf := find_spec l data hwf
  have hlen := toList_length hwf
  refine ⟨fun h => by rw [hf, if_pos h], fun h => ?_⟩
  rw [hf, if_neg h]
  refine ⟨rfl, fun hm => ?_, fun hm => ?_⟩
  · rw [← hlen]
    exact List.indexOf_lt_length.2 hm
  · rw [List.indexOf_eq_length.2 hm, hlen]

theorem C16_find_first_index_witness :
    find (⟨[7, 5, 9, 5, 0], 4, 5⟩ : ArrayList Nat) 5 = .ok 1 ∧
      find (⟨[7, 5, 9, 5, 0], 4, 5⟩ : ArrayList Nat) 0 = .ok 4 ∧
      find (⟨[0, 0], 0, 2⟩ : ArrayList Nat) 0 = .error .empty_list :=
  ⟨((C16_find_first_index (⟨[7, 5, 9, 5, 0], 4, 5⟩ : ArrayList Nat) 5 ⟨rfl, by decide⟩).2
      (by decide)).1,
    ((C16_find_first_index (⟨[7, 5, 9, 5, 0], 4, 5⟩ : ArrayList Nat) 0 ⟨rfl, by decide⟩).2
      (by decide)).2.2 (by decide),
    (C16_find_first_index (⟨[0, 0], 0, 2⟩ : ArrayList Nat) 0 ⟨rfl, by decide⟩).1 rfl⟩

end ArrayList

namespace CircularList

/-- C17 (the code breaks it). The claim: `at(index)` throws for every
`index >= size()`. After `push_back(1), push_back(2), push_back(3)` the call `at(3)`
throws nothing and returns 0, the data of the sentinel `head`: the test is
`index > size_`, and three steps from the first node lead back to `head`. For
`index > size()` it throws, and for `index < size()` it returns the element. -/
theorem C17_at_size_returns_the_sentinel :
    ∃ l : CircularList Int,
      (ctor : CircularList Int).push_back 1 >>= (fun l => l.push_back 2) >>=
        (fun l => l.push_back 3) = .ok l ∧
      l.size = 3 ∧ l.at_ 3 = .ok 0 ∧
      l.at_ 0 = .ok 1 ∧ l.at_ 1 = .ok 2 ∧ l.at_ 2 = .ok 3 ∧
      l.at_ 4 = .error .posicao_invalida :=
  ⟨⟨0, [1, 2, 3], true, 3⟩, rfl, rfl, rfl, rfl, rfl, rfl, rfl⟩

end CircularList

namespace AVLTree

variable {α : Type} [LinearOrder α]

/-- C18 (the code breaks it). The claim: at an ancestor with `bf > 1` and
`value > node.left.value`, the subtree that takes the ancestor's place is the result of
the left-right double rotation. After `insert(40), insert(10), insert(30)`, `insert(20)`
finds at the ancestor 40 the balance factor 2 with `20 > 10`; `doubleLeft` of that
ancestor is the subtree with root 30 holding 10, 20, 30 and 40, but the subtree put in
its place is the node 40 alone: `doubleLeft(node)` is called without using its result
and `node` is returned. -/
theorem C18_double_rotation_result_is_discarded :
    (init : AVLTree Nat).run [.insert 40, .insert 10, .insert 30] =
        .ok ⟨.node 40 2 (.node 10 1 .null (.node 30 0 .null .null)) .null, 3⟩ ∧
      Node.insert (.node 10 1 .null (.node 30 0 .null .null) : Node Nat) 20 =
        .ok (.node 10 2 .null (.node 30 1 (.node 20 0 .null .null) .null)) ∧
      Node.get_balance
        (.node 40 3 (.node 10 2 .null (.node 30 1 (.node 20 0 .null .null) .null)) .null :
          Node Nat) = 2 ∧
      Node.doubleLeft
        (.node 40 3 (.node 10 2 .null (.node 30 1 (.node 20 0 .null .null) .null)) .null :
          Node Nat) =
        .ok (.node 30 2 (.node 10 1 .null (.node 20 0 .null .null))
          (.node 40 1 .null .null)) ∧
      Node.insertFix 20 40
        (.node 10 2 .null (.node 30 1 (.node 20 0 .null .null) .null) : Node Nat) .null =
        .ok (.node 40 1 .null .null) ∧
      AVLTree.insert
        (⟨.node 40 2 (.node 10 1 .null (.node 30 0 .null .null)) .null, 3⟩ : AVLTree Nat) 20 =
        .ok ⟨.node 40 1 .null .null, 4⟩ :=
  ⟨rfl, rfl, rfl, rfl, rfl, rfl⟩

/-- C19. Rotations keep the order of the values. When the promoted child exists,
`simpleLeft(t)` and `simpleRight(t)` return a subtree with the in-order sequence of `t`.
When the child and the inner grandchild exist, `doubleLeft(t)` is `simpleLeft` applied
to `t` with its left child replaced by `simpleRight(left child)`, `doubleRight(t)` is
`simpleRight` applied to `t` with its right child replaced by `simpleLeft(right child)`,
and both return a subtree with the in-order sequence of `t`. -/
theorem C19_rotations_keep_in_order :
    (∀ (d : α) (h : Int) (d1 : α) (h1 : Int) (l1 r1 r : Node α),
      ∃ a, Node.simpleLeft (.node d h (.node d1 h1 l1 r1) r) = .ok a ∧
        a.in_order [] = (Node.node d h (.node d1 h1 l1 r1) r).in_order []) ∧
    (∀ (d : α) (h : Int) (l : Node α) (d1 : α) (h1 : Int) (l1 r1 : Node α),
      ∃ a, Node.simpleRight (.node d h l (.node d1 h1 l1 r1)) = .ok a ∧
        a.in_order [] = (Node.node d h l (.node d1 h1 l1 r1)).in_order []) ∧
    (∀ (d : α) (h : Int) (d1 : α) (h1 : Int) (l1 : Node α) (d2 : α) (h2 : Int)
        (l2 r2 r : Node α),
      ∃ l' a, Node.simpleRight (.node d1 h1 l1 (.node d2 h2 l2 r2)) = .ok l' ∧
        Node.doubleLeft (.node d h (.node d1 h1 l1 (.node d2 h2 l2 r2)) r) =
          Node.simpleLeft (.node d h l' r) ∧
        Node.doubleLeft (.node d h (.node d1 h1 l1 (.node d2 h2 l2 r2)) r) = .ok a ∧
        a.in_order [] =
          (Node.node d h (.node d1 h1 l1 (.node d2 h2 l2 r2)) r).in_order []) ∧
    (∀ (d : α) (h : Int) (l : Node α) (d1 : α) (h1 : Int) (d2 : α) (h2 : Int)
        (l2 r2 r1 : Node α),
      ∃ r' a, Node.simpleLeft (.node d1 h1 (.node d2 h2 l2 r2) r1) = .ok r' ∧
        Node.doubleRight (.node d h l (.node d1 h1 (.node d2 h2 l2 r2) r1)) =
          Node.simpleRight (.node d h l r') ∧
        Node.doubleRight (.node d h l (.node d1 h1 (.node d2 h2 l2 r2) r1)) = .ok a ∧
        a.in_order [] =
          (Node.node d h l (.node d1 h1 (.node d2 h2 l2 r2) r1)).in_order []) := by
  refine ⟨?_, ?_, ?_, ?_⟩
  · intro d h d1 h1 l1 r1 r
    exact ⟨_, rfl, Node.simpleLeft_in_order rfl⟩
  · intro d h l d1 h1 l1 r1
    exact ⟨_, rfl, Node.simpleRight_in_order rfl⟩
  · intro d h d1 h1 l1 d2 h2 l2 r2 r
    exact ⟨_, _, rfl, rfl, rfl, Node.doubleLeft_in_order rfl⟩
  · intro d h l d1 h1 d2 h2 l2 r2 r1
    exact ⟨_, _, rfl, rfl, rfl, Node.doubleRight_in_order rfl⟩

theorem pre_order_array_eq (raw : ArrayList α) (t : AVLTree α) :
    t.pre_order_array raw = Node.pre_order_into t.root raw := by
  unfold AVLTree.pre_order_array ArrayList.ctor_default
  split
  · rfl
  · next h =>
      have : t.root = .null := by simpa using h
      rw [this]
      rfl

theorem in_order_array_eq (raw : ArrayList α) (t : AVLTree α) :
    t.in_order_array raw = Node.in_order_into t.root raw := by
  unfold AVLTree.in_order_array ArrayList.ctor_default
  split
  · rfl
  · next h =>
      have : t.root = .null := by simpa using h
      rw [this]
      rfl

theorem post_order_array_eq (raw : ArrayList α) (t : AVLTree α) :
    t.post_order_array raw = Node.post_order_into t.root raw := by
  unfold AVLTree.post_order_array ArrayList.ctor_default
  split
  · rfl
  · next h =>
      have : t.root = .null := by simpa using h
      rw [this]
      rfl

/-- On a container whose `size_` equals its `max_size_`, `pre_order` throws "full list"
at its first `push_back`. -/
theorem Node.pre_order_into_full (d : α) (h : Int) (l r : Node α) {v : ArrayList α}
    (hv : v.size = v.max_size) :
    Node.pre_order_into (.node d h l r) v = .error .full_list := by
  simp only [Node.pre_order_into, ArrayList.push_back, ArrayList.insert_full d _ hv]
  rfl

/-- On a container whose `size_` equals its `max_size_`, `in_order` throws "full list"
at its first `push_back`. -/
theorem Node.in_order_into_full (d : α) (h : Int) (l r : Node α) {v : ArrayList α}
    (hv : v.size = v.max_size) :
    Node.in_order_into (.node d h l r) v = .error .full_list := by
  induction l generalizing d h r with
  | null =>
      show (v.insert d v.size >>= fun v2 => Node.in_order_into r v2) = _
      rw [ArrayList.insert_full d _ hv]
      rfl
  | node ld lh ll lr ihl _ =>
      rw [Node.in_order_into, ihl ld lh lr]
      rfl

/-- On a container whose `size_` equals its `max_size_`, `post_order` throws "full list"
at its first `push_back`. -/
theorem Node.post_order_into_full (n : Node α) (hn : n ≠ .null) {v : ArrayList α}
    (hv : v.size = v.max_size) :
    Node.post_order_into n v = .error .full_list := by
  induction n with
  | null => exact absurd rfl hn
  | node d h l r ihl ihr =>
      cases l with
      | node ld lh ll lr =>
          rw [Node.post_order_into, ihl (by simp)]
          rfl
      | null =>
          cases r with
          | node rd rh rl rr =>
              show (Node.post_order_into (.node rd rh rl rr) v >>=
                fun v2 => v2.push_back d) = _
              rw [ihr (by simp)]
              rfl
          | null =>
              show v.insert d v.size = _
              exact ArrayList.insert_full d _ hv

/-- On a tree with a root, each traversal called with a container whose `size_` equals
its `max_size_` throws "full list". -/
theorem traversals_full (raw : ArrayList α) (t : AVLTree α) (ht : t.root ≠ .null)
    (hv : raw.size = raw.max_size) :
    t.pre_order_array raw = .error .full_list ∧
      t.in_order_array raw = .error .full_list ∧
      t.post_order_array raw = .error .full_list := by
  rw [pre_order_array_eq, in_order_array_eq, post_order_array_eq]
  refine ⟨?_, ?_, Node.post_order_into_full t.root ht hv⟩
  · cases hr : t.root with
    | null => exact absurd hr ht
    | node d h l r => exact Node.pre_order_into_full d h l r hv
  · cases hr : t.root with
    | null => exact absurd hr ht
    | node d h l r => exact Node.in_order_into_full d h l r hv

/-- C20 (the code breaks it). The claim: each traversal returns a fresh container with
the n values of the tree and never throws "full list". `pre_order()`, `in_order()` and
`post_order()` declare `ArrayList<T> v;`, and the default constructor only builds and
discards another list, so `contents`, `size_` and `max_size_` of `v` are never written.
After `insert(5)` on the empty tree, the one value to return is `5`. With the members of
`v` zero, `full()` holds and the first `push_back` throws "full list" in each of the
three traversals; with `size_` 0, `max_size_` 10 and no buffer behind `contents`, the
first `push_back` writes outside any buffer. -/
theorem C20_unset_container_throws_full_list :
    ∃ t : AVLTree Nat,
      init.insert 5 = .ok t ∧ t.in_order = [5] ∧
      t.pre_order_array ⟨[], 0, 0⟩ = .error .full_list ∧
      t.in_order_array ⟨[], 0, 0⟩ = .error .full_list ∧
      t.post_order_array ⟨[], 0, 0⟩ = .error .full_list ∧
      t.pre_order_array ⟨[], 0, 10⟩ = .error .out_of_buffer ∧
      t.in_order_array ⟨[], 0, 10⟩ = .error .out_of_buffer ∧
      t.post_order_array ⟨[], 0, 10⟩ = .error .out_of_buffer :=
  ⟨⟨.node 5 0 .null .null, 1⟩, rfl, rfl, rfl, rfl, rfl, rfl, rfl, rfl⟩

/-! ## Cached heights, node counts and removal of the smallest value -/

/-- C21 (the code breaks it). The claim: `insert` never reaches a rotation on a missing
node. The seventeen calls `insert(16), insert(15), insert(10), insert(9), insert(8),
insert(5), insert(4), insert(3), insert(2), insert(1), insert(7), insert(6), insert(11),
insert(14), insert(0), insert(13), insert(12)` complete and leave the chain
9 → 15 → 16 with cached heights 3, 2, 1. Then `insert(8)` finds the balance factor
0 - 2 at 9 with `8 < 15`, enters the right-left case, and `doubleRight` calls
`simpleLeft` on the node 15, whose left child is missing. -/
theorem C21_insert_rotates_on_a_missing_node :
    (init : AVLTree Nat).run
        ([16, 15, 10, 9, 8, 5, 4, 3, 2, 1, 7, 6, 11, 14, 0, 13, 12].map Op.insert) =
        .ok ⟨.node 9 3 .null (.node 15 2 .null (.node 16 1 .null .null)), 17⟩ ∧
      Node.get_balance
        (.node 9 3 (.node 8 0 .null .null) (.node 15 2 .null (.node 16 1 .null .null)) :
          Node Nat) = -2 ∧
      Node.simpleLeft (.node 15 2 .null (.node 16 1 .null .null) : Node Nat) =
        .error .null_deref ∧
      Node.doubleRight
        (.node 9 3 (.node 8 0 .null .null) (.node 15 2 .null (.node 16 1 .null .null)) :
          Node Nat) = .error .null_deref ∧
      AVLTree.insert
        (⟨.node 9 3 .null (.node 15 2 .null (.node 16 1 .null .null)), 17⟩ : AVLTree Nat) 8 =
        .error .null_deref ∧
      (init : AVLTree Nat).run
        ([16, 15, 10, 9, 8, 5, 4, 3, 2, 1, 7, 6, 11, 14, 0, 13, 12, 8].map Op.insert) =
        .error .null_deref :=
  ⟨rfl, rfl, rfl, rfl, rfl, rfl⟩

end AVLTree

/-! ## The linked queue -/

namespace LinkedQueue

variable {α : Type}

theorem Path.length_eq {heap : List (Option (Node α))} {adrs : List Nat} {xs : List α}
    (h : Path heap adrs xs) : adrs.length = xs.length := by
  induction adrs generalizing xs with
  | nil =>
      simp only [Path] at h
      subst h
      rfl
  | cons a adrs ih =>
      obtain ⟨x, rest, nx, rfl, _, _, hp⟩ := h
      simp [ih hp]

/-- A path only depends on the nodes at its addresses. -/
theorem Path.frame {heap heap' : List (Option (Node α))} {adrs : List Nat} {xs : List α}
    (hsame : ∀ a ∈ adrs, heap'[a]? = heap[a]?) (h : Path heap adrs xs) :
    Path heap' adrs xs := by
  induction adrs generalizing xs with
  | nil => exact h
  | cons a adrs ih =>
      obtain ⟨x, rest, nx, rfl, ha, hn, hp⟩ := h
      refine ⟨x, rest, nx, rfl, ?_, hn, ih (fun b hb => hsame b (List.mem_cons_of_mem _ hb)) hp⟩
      rw [hsame a (List.mem_cons_self _ _)]
      exact ha

/-- The addresses of a path are allocated. -/
theorem Path.lt_length {heap : List (Option (Node α))} {adrs : List Nat} {xs : List α}
    (h : Path heap adrs xs) : ∀ a ∈ adrs, a < heap.length := by
  induction adrs generalizing xs with
  | nil => intro a ha; cases ha
  | cons b adrs ih =>
      obtain ⟨x, rest, nx, rfl, hb, _, hp⟩ := h
      intro a ha
      rcases List.mem_cons.1 ha with rfl | ha'
      · by_contra hlt
        rw [List.getElem?_eq_none (by omega)] at hb
        cases hb
      · exact ih hp a ha'

/-- Linking a new node behind the last node of a path extends the path. -/
theorem Path.snoc {heap heap' : List (Option (Node α))} {adrs : List Nat} {xs : List α}
    {t new : Nat} {data : α} (nx : Option Nat)
    (h : Path heap adrs xs) (hnd : adrs.Nodup) (hlast : adrs.getLast? = some t)
    (hsame : ∀ a ∈ adrs, a ≠ t → heap'[a]? = heap[a]?)
    (ht : ∀ nd, heap[t]? = some (some nd) → heap'[t]? = some (some ⟨nd.data_, some new⟩))
    (hnew : heap'[new]? = some (some ⟨data, nx⟩)) :
    Path heap' (adrs ++ [new]) (xs ++ [data]) := by
  induction adrs generalizing xs with
  | nil => cases hlast
  | cons a adrs ih =>
      obtain ⟨x, rest, n1, rfl, ha, hn, hp⟩ := h
      cases adrs with
      | nil =>
          simp only [List.getLast?_singleton, Option.some.injEq] at hlast
          subst hlast
          simp only [Path] at hp
          subst hp
          refine ⟨x, [data], some new, rfl, ?_, ?_, ?_⟩
          · exact ht _ ha
          · intro b hb
            have hb' : new = b := by simpa using hb
            rw [hb']
          · exact ⟨data, [], nx, rfl, hnew, (fun b hb => by cases hb), rfl⟩
      | cons b adrs =>
          have hat : a ≠ t := by
            rintro rfl
            have hmem : a ∈ b :: adrs := by
              rw [List.getLast?_cons_cons] at hlast
              exact List.mem_of_getLast?_eq_some hlast
            exact (List.nodup_cons.1 hnd).1 hmem
          refine ⟨x, rest ++ [data], n1, rfl, ?_, ?_, ?_⟩
          · rw [hsame a (List.mem_cons_self _ _) hat]
            exact ha
          · intro c hc
            exact hn c (by simpa using hc)
          · exact ih hp (List.nodup_cons.1 hnd).2
              (by rw [List.getLast?_cons_cons] at hlast; exact hlast)
              (fun c hc hct => hsame c (List.mem_cons_of_mem _ hc) hct)


/-- Every address of a path leads to a live node. -/
theorem Path.live {heap : List (Option (Node α))} {adrs : List Nat} {xs : List α}
    (h : Path heap adrs xs) : ∀ a ∈ adrs, ∃ nd, heap[a]? = some (some nd) := by
  induction adrs generalizing xs with
  | nil => intro a ha; cases ha
  | cons b adrs ih =>
      obtain ⟨x, rest, nx, rfl, hb, _, hp⟩ := h
      intro a ha
      rcases List.mem_cons.1 ha with rfl | ha'
      · exact ⟨_, hb⟩
      · exact ih hp a ha'

theorem holds_ctor : Holds (ctor : LinkedQueue α) [] :=
  ⟨rfl, [], List.nodup_nil, rfl, fun h => absurd rfl h⟩

theorem holds_size {q : LinkedQueue α} {xs : List α} (h : Holds q xs) :
    q.size = xs.length := h.1

theorem holds_empty {q : LinkedQueue α} {xs : List α} (h : Holds q xs) :
    q.empty = xs.isEmpty := by
  unfold empty
  rw [h.1]
  cases xs <;> simp

theorem holds_enqueue {q : LinkedQueue α} {xs : List α} (data : α) (h : Holds q xs) :
    ∃ q', q.enqueue data = .ok q' ∧ Holds q' (xs ++ [data]) := by
  obtain ⟨hsize, adrs, hnd, hpath, hends⟩ := h
  have hlen := hpath.length_eq
  by_cases hxs : xs = []
  · subst hxs
    have he : q.empty = true := by simp [empty, hsize]
    refine ⟨⟨q.heap ++ [some ⟨data, q.tail⟩], some q.heap.length, some q.heap.length,
      q.size_ + 1⟩, by simp only [enqueue, he, if_true], ?_, [q.heap.length], by simp, ?_, ?_⟩
    · simp [hsize]
    · exact ⟨data, [], q.tail, rfl, by simp, (fun b hb => by cases hb), rfl⟩
    · intro _
      exact ⟨rfl, rfl⟩
  · have he : q.empty = false := by
      have : xs.length ≠ 0 := fun h0 => hxs (List.length_eq_zero.1 h0)
      simp [empty, hsize, this]
    obtain ⟨hhead, htail⟩ := hends hxs
    have hne : adrs ≠ [] := by
      intro h0
      rw [h0] at hlen
      exact hxs (List.length_eq_zero.1 hlen.symm)
    obtain ⟨t, ht⟩ : ∃ t, adrs.getLast? = some t :=
      ⟨adrs.getLast hne, List.getLast?_eq_getLast _ hne⟩
    have htmem : t ∈ adrs := List.mem_of_getLast?_eq_some ht
    obtain ⟨nd, hndt⟩ := hpath.live t htmem
    have hlt := hpath.lt_length
    have h1 : ∀ (cell : Option (Node α)) (a : Nat), a < q.heap.length →
        (q.heap ++ [cell])[a]? = q.heap[a]? :=
      fun _ a ha => List.getElem?_append_left ha
    have htl : q.tail = some t := htail.trans ht
    have hq : q.enqueue data = .ok ⟨(q.heap ++ [some (⟨data, q.tail⟩ : Node α)]).set t
        (some ⟨nd.data_, some q.heap.length⟩), q.head, some q.heap.length, q.size_ + 1⟩ := by
      simp only [enqueue, he, htl, h1 _ t (hlt t htmem), hndt, Bool.false_eq_true, if_false]
    refine ⟨_, hq, ?_, adrs ++ [q.heap.length], ?_, ?_, ?_⟩
    · simp [hsize]
    · rw [List.nodup_append]
      refine ⟨hnd, by simp, ?_⟩
      intro a ha hb
      have := hlt a ha
      simp only [List.mem_singleton] at hb
      omega
    · refine Path.snoc q.tail hpath hnd ht ?_ ?_ ?_
      · intro a ha hat
        show ((q.heap ++ [some (⟨data, q.tail⟩ : Node α)]).set t _)[a]? = _
        rw [List.getElem?_set_ne (Ne.symm hat), h1 _ a (hlt a ha)]
      · intro nd' hnd'
        rw [hndt] at hnd'
        simp only [Option.some.injEq] at hnd'
        subst hnd'
        show ((q.heap ++ [some (⟨data, q.tail⟩ : Node α)]).set t _)[t]? = _
        rw [List.getElem?_set_self (by simp; have := hlt t htmem; omega)]
      · show ((q.heap ++ [some (⟨data, q.tail⟩ : Node α)]).set t _)[q.heap.length]? =
          some (some ⟨data, q.tail⟩)
        rw [List.getElem?_set_ne (by have := hlt t htmem; omega)]
        simp
    · intro _
      refine ⟨?_, by simp⟩
      show q.head = _
      rw [hhead, List.head?_append_of_ne_nil _ hne]

theorem holds_dequeue {q : LinkedQueue α} {x : α} {xs : List α} (h : Holds q (x :: xs)) :
    ∃ q', q.dequeue = .ok (x, q') ∧ Holds q' xs := by
  obtain ⟨hsize, adrs, hnd, hpath, hends⟩ := h
  obtain ⟨hhead, htail⟩ := hends (by simp)
  cases adrs with
  | nil => cases hpath
  | cons a adrs =>
      obtain ⟨x', rest, nx, hx, ha, hn, hp⟩ := hpath
      simp only [List.cons.injEq] at hx
      obtain ⟨rfl, rfl⟩ := hx
      have he : q.empty = false := by simp [empty, hsize]
      simp only [List.head?_cons] at hhead
      refine ⟨⟨q.heap.set a none, nx, q.tail, q.size_ - 1⟩, ?_, ?_, adrs,
        (List.nodup_cons.1 hnd).2, ?_, ?_⟩
      · simp only [dequeue, he, hhead, ha]
        rfl
      · simp [hsize]
      · refine hp.frame ?_
        intro b hb
        have hab : a ≠ b := by
          rintro rfl
          exact (List.nodup_cons.1 hnd).1 hb
        show (q.heap.set a none)[b]? = _
        rw [List.getElem?_set_ne hab]
      · intro hne
        cases adrs with
        | nil =>
            simp only [Path] at hp
            exact absurd hp hne
        | cons b adrs =>
            refine ⟨hn b rfl, ?_⟩
            show q.tail = _
            rw [htail, List.getLast?_cons_cons]

theorem holds_front {q : LinkedQueue α} {x : α} {xs : List α} (h : Holds q (x :: xs)) :
    q.front = .ok x := by
  obtain ⟨hsize, adrs, hnd, hpath, hends⟩ := h
  obtain ⟨hhead, htail⟩ := hends (by simp)
  cases adrs with
  | nil => cases hpath
  | cons a adrs =>
      obtain ⟨x', rest, nx, hx, ha, hn, hp⟩ := hpath
      simp only [List.cons.injEq] at hx
      obtain ⟨rfl, rfl⟩ := hx
      have he : q.empty = false := by simp [empty, hsize]
      simp only [List.head?_cons] at hhead
      simp only [front, he, hhead, deref, ha]
      rfl

/-- The last address of a path holds the last value. -/
theorem Path.last {heap : List (Option (Node α))} {adrs : List Nat} {xs : List α}
    {t : Nat} {y : α} (h : Path heap adrs xs) (ht : adrs.getLast? = some t)
    (hy : xs.getLast? = some y) : ∃ nx, heap[t]? = some (some ⟨y, nx⟩) := by
  induction adrs generalizing xs with
  | nil => cases ht
  | cons a adrs ih =>
      obtain ⟨x, rest, nx, rfl, ha, hn, hp⟩ := h
      cases adrs with
      | nil =>
          simp only [Path] at hp
          subst hp
          simp only [List.getLast?_singleton, Option.some.injEq] at ht hy
          subst ht
          subst hy
          exact ⟨nx, ha⟩
      | cons b adrs =>
          obtain ⟨x2, rest2, nx2, rfl, hb, hn2, hp2⟩ := hp
          rw [List.getLast?_cons_cons] at ht hy
          exact ih ⟨x2, rest2, nx2, rfl, hb, hn2, hp2⟩ ht hy

theorem holds_back {q : LinkedQueue α} {y : α} {xs : List α} (h : Holds q xs)
    (hy : xs.getLast? = some y) : q.back = .ok y := by
  obtain ⟨hsize, adrs, hnd, hpath, hends⟩ := h
  have hxs : xs ≠ [] := by
    rintro rfl
    cases hy
  obtain ⟨hhead, htail⟩ := hends hxs
  have hlen := hpath.length_eq
  have hne : adrs ≠ [] := by
    intro h0
    rw [h0] at hlen
    exact hxs (List.length_eq_zero.1 hlen.symm)
  obtain ⟨t, ht⟩ : ∃ t, adrs.getLast? = some t :=
    ⟨adrs.getLast hne, List.getLast?_eq_getLast _ hne⟩
  obtain ⟨nx, hcell⟩ := hpath.last ht hy
  have he : q.empty = false := by
    have : xs.length ≠ 0 := fun h0 => hxs (List.length_eq_zero.1 h0)
    simp [empty, hsize, this]
  simp only [back, he, htail, ht, deref, hcell]
  rfl


/-- Each call on a queue that holds `xs` does what the first-in first-out queue does
on `xs`. -/
theorem call_sim {q : LinkedQueue α} {xs : List α} (h : Holds q xs) (c : Call α) :
    (∃ r q' xs', q.call c = .ok (r, q') ∧ fifo_call xs c = .ok (r, xs') ∧ Holds q' xs') ∨
    (q.call c = .error .fila_vazia ∧ fifo_call xs c = .error .fila_vazia) := by
  cases c with
  | enqueue data =>
      obtain ⟨q', hq, hh⟩ := holds_enqueue data h
      exact Or.inl ⟨.done, q', xs ++ [data], by simp only [call, hq]; rfl, rfl, hh⟩
  | dequeue =>
      cases xs with
      | nil =>
          have he : q.empty = true := by rw [holds_empty h]; rfl
          exact Or.inr ⟨by simp only [call, dequeue, he, if_true]; rfl, rfl⟩
      | cons x rest =>
          obtain ⟨q', hq, hh⟩ := holds_dequeue h
          exact Or.inl ⟨.value x, q', rest, by simp only [call, hq]; rfl, rfl, hh⟩
  | front =>
      cases xs with
      | nil =>
          have he : q.empty = true := by rw [holds_empty h]; rfl
          exact Or.inr ⟨by simp only [call, front, he, if_true]; rfl, rfl⟩
      | cons x rest =>
          exact Or.inl ⟨.value x, q, x :: rest, by simp only [call, holds_front h]; rfl, rfl, h⟩
  | back =>
      cases hl : xs.getLast? with
      | none =>
          have hxs : xs = [] := List.getLast?_eq_none_iff.1 hl
          subst hxs
          have he : q.empty = true := by rw [holds_empty h]; rfl
          exact Or.inr ⟨by simp only [call, back, he, if_true]; rfl, rfl⟩
      | some y =>
          refine Or.inl ⟨.value y, q, xs, by simp only [call, holds_back h hl]; rfl, ?_, h⟩
          simp only [fifo_call, hl]
  | empty => exact Or.inl ⟨.flag q.empty, q, xs, rfl, by simp only [fifo_call, holds_empty h], h⟩
  | size => exact Or.inl ⟨.count q.size, q, xs, rfl, by simp only [fifo_call, holds_size h], h⟩

/-- A queue that holds `xs` answers every sequence of calls as the first-in first-out
queue does from `xs`. -/
theorem observe_eq {q : LinkedQueue α} {xs : List α} (h : Holds q xs) (cs : List (Call α)) :
    observe q cs = fifo_observe xs cs := by
  induction cs generalizing q xs with
  | nil => rfl
  | cons c cs ih =>
      rcases call_sim h c with ⟨r, q', xs', hq, hf, hh⟩ | ⟨hq, hf⟩
      · simp only [observe, fifo_observe, hq, hf, ih hh]
      · simp only [observe, fifo_observe, hq, hf, ih h]

theorem fifo_observe_enqueues (ys xs : List α) (cs : List (Call α)) :
    fifo_observe ys (xs.map Call.enqueue ++ cs) =
      List.replicate xs.length (.ok .done) ++ fifo_observe (ys ++ xs) cs := by
  induction xs generalizing ys with
  | nil => simp
  | cons x xs ih =>
      simp only [List.map_cons, List.cons_append, fifo_observe, fifo_call, List.length_cons,
        List.replicate_succ]
      have h1 := ih (ys ++ [x])
      simp only [List.append_assoc, List.singleton_append] at h1
      exact congrArg _ h1

theorem fifo_observe_dequeues (ys : List α) (cs : List (Call α)) :
    fifo_observe ys (List.replicate ys.length Call.dequeue ++ cs) =
      ys.map (fun y => .ok (.value y)) ++ fifo_observe [] cs := by
  induction ys with
  | nil => simp
  | cons y ys ih =>
      simp only [List.length_cons, List.replicate_succ, List.cons_append, fifo_observe,
        fifo_call, List.map_cons]
      exact congrArg _ ih


/-- C24. `LinkedQueue` is first-in first-out. Started from the empty queue, every
sequence of `enqueue`, `dequeue`, `front`, `back`, `empty` and `size` calls, interleaved
in any way, gets the replies of the first-in first-out queue (no bad pointer is ever
followed). In particular, after `x1 … xn` are enqueued (`n > 0`), `front()` returns `x1`
and `back()` returns `xn`, `n` calls of `dequeue` return `x1, …, xn` in this order, after
which `size()` is 0, `empty()` is true and `dequeue` throws "fila vazia". -/
theorem C24_linked_queue_is_fifo :
    (∀ cs : List (Call α), observe (ctor : LinkedQueue α) cs = fifo_observe [] cs) ∧
    (∀ (x : α) (rest : List α),
      observe (ctor : LinkedQueue α)
        ((x :: rest).map Call.enqueue ++ (Call.front :: Call.back ::
          (List.replicate (x :: rest).length Call.dequeue ++
            [Call.size, Call.empty, Call.dequeue]))) =
      List.replicate (x :: rest).length (.ok .done) ++
        (.ok (.value x) :: .ok (.value ((x :: rest).getLast (List.cons_ne_nil x rest))) ::
          ((x :: rest).map (fun y => .ok (.value y)) ++
            [.ok (.count 0), .ok (.flag true), .error .fila_vazia]))) := by
  refine ⟨fun cs => observe_eq holds_ctor cs, fun x rest => ?_⟩
  rw [observe_eq holds_ctor, fifo_observe_enqueues, List.nil_append]
  have hlast : (x :: rest).getLast? = some ((x :: rest).getLast (List.cons_ne_nil x rest)) :=
    List.getLast?_eq_getLast _ _
  have h1 : fifo_observe (x :: rest) (Call.front :: Call.back ::
      (List.replicate (x :: rest).length Call.dequeue ++
        [Call.size, Call.empty, Call.dequeue])) =
      .ok (.value x) :: .ok (.value ((x :: rest).getLast (List.cons_ne_nil x rest))) ::
        fifo_observe (x :: rest) (List.replicate (x :: rest).length Call.dequeue ++
          [Call.size, Call.empty, Call.dequeue]) := by
    simp only [fifo_observe, fifo_call, List.head?_cons, hlast]
  rw [h1, fifo_observe_dequeues]
  rfl

end LinkedQueue
end structures
